import Mathlib

/-!
Verification development for the `ariba` report filter
(`ariba/report_filter.py`).

The Python module loads a tab-separated report into a two-level mapping
(reference name → contig name → list of report dicts), filters each group
of records with an essential predicate (flag / percent identity / bases
assembled) and a non-essential predicate (`has_known_var == '1'`), demotes
a single representative record when only the non-essential predicate
failed everywhere, prunes empty branches, and serializes the result.

Python dicts are modelled as association lists (`List (String × _)`),
Python lists as `List`, Python `float` values as exact decimal
significand/exponent pairs, and fallible code (raised exceptions) as
`Option` / explicit result inductives.
-/

set_option autoImplicit false

namespace ReportFilter

/-- Python float value as it occurs in the report, modelled exactly as a
decimal number `mant / 10 ^ exp`.  Python guarantees that `float ∘ str` is
the identity on floats, which this decimal model preserves; binary
rounding of out-of-range literals is outside the modelled domain. -/
structure PyFloat where
  mant : Int
  exp : Nat
  deriving DecidableEq, Repr

/-- Value of a numeric report column: either the sentinel string `"."`
(kept verbatim by `_report_line_to_dict` when coercion fails) or a number. -/
inductive NumField (α : Type) where
  | dot
  | num (x : α)
  deriving DecidableEq, Repr

/-- Modelled from the spec: the ordered list of named flag bits of the
`flag.Flag` bitset (the `ariba.flag` module is not part of the given
source).  The spec names the two conditions consulted by the filter,
`assembly_fail` and `ref_seq_choose_fail`. -/
def flagBitNames : List String := ["assembly_fail", "ref_seq_choose_fail"]

/-- Modelled from the spec: the `flag.Flag` bitset, an integer bitmask
parsed from its integer encoding and offering a `has(name)` membership
query. -/
structure Flag where
  n : Int
  deriving DecidableEq, Repr

/-- Modelled from the spec: membership query of the flag bitset ("does
this flag include condition X").  A name that is not a known flag bit is
never a member. -/
def Flag.has (fl : Flag) (name : String) : Bool :=
  match flagBitNames.indexOf? name with
  | some i => fl.n.toNat.testBit i
  | none => false

/-- Modelled from the spec: number of variant-specific report columns
(the fixed set of additional "variant" fields of a record that are
overwritten with the sentinel `"."` when a record is demoted). -/
def numVarCols : Nat := 2

/-- One report row (a `report_dict` in the source): the fields of the
fixed schema.  The schema itself (`report.columns`) is not part of the
given source and is modelled from the spec, which names a reference
sequence name, a contig name, a flag bitset, a percent identity (float),
a count of reference bases assembled (int), the `has_known_var` indicator
(stored as the string `"1"` or `"0"`), and the variant-specific columns
(kept here as their raw string values, in schema order). -/
structure Rec where
  ref_name : String
  ctg : String
  flag : Flag
  pc_ident : NumField PyFloat
  ref_base_assembled : NumField Int
  has_known_var : String
  var_fields : List String
  deriving DecidableEq, Repr

/-- Configuration of `ReportFilter.__init__`: minimum percent identity,
minimum reference bases assembled, whether the known-variant indicator is
required, and the excluded flag names. -/
structure Config where
  min_pc_ident : Rat
  min_ref_base_assembled : Int
  ignore_not_has_known_variant : Bool
  exclude_flags : List String
  deriving DecidableEq

/-- The constructor defaults: `min_pc_ident=90`, `min_ref_base_assembled=1`,
`ignore_not_has_known_variant=True`,
`exclude_flags=['assembly_fail', 'ref_seq_choose_fail']`. -/
def defaultConfig : Config :=
  ⟨90, 1, true, ["assembly_fail", "ref_seq_choose_fail"]⟩

/-- Exact comparison `x >= q` between a Python float and a rational
threshold (Python compares numeric types by exact value). -/
def PyFloat.geRat (x : PyFloat) (q : Rat) : Bool :=
  decide (q.num * (10 : Int) ^ x.exp ≤ x.mant * (q.den : Int))

/-- `ReportFilter._flag_passes_filter`: the flag passes iff it has none of
the excluded flag names. -/
def flag_passes_filter (fl : Flag) (exclude_flags : List String) : Bool :=
  exclude_flags.all (fun f => !(fl.has f))

/-- `ReportFilter._report_dict_passes_non_essential_filters`: when
`ignore_not_has_known_variant` is set, requires `has_known_var == '1'`;
otherwise always true. -/
def report_dict_passes_non_essential_filters (cfg : Config) (d : Rec) : Bool :=
  if cfg.ignore_not_has_known_variant then d.has_known_var == "1" else true

/-- `ReportFilter._report_dict_passes_essential_filters`: the flag check,
then `pc_ident >= min_pc_ident`, then
`ref_base_assembled >= min_ref_base_assembled`, with Python's
short-circuit `and`.  Comparing the sentinel string `"."` with a number
raises `TypeError` in Python, modelled as `none`. -/
def report_dict_passes_essential_filters (cfg : Config) (d : Rec) : Option Bool :=
  if !flag_passes_filter d.flag cfg.exclude_flags then some false
  else
    match d.pc_ident with
    | .dot => none
    | .num x =>
      if !x.geRat cfg.min_pc_ident then some false
      else
        match d.ref_base_assembled with
        | .dot => none
        | .num b => some (decide (cfg.min_ref_base_assembled ≤ b))

/-- Boolean form of "satisfies the essential predicate" (no `TypeError`
and the predicate holds). -/
def essB (cfg : Config) (d : Rec) : Bool :=
  report_dict_passes_essential_filters cfg d == some true

/-- Boolean form of "fails the essential predicate" (no `TypeError`). -/
def failB (cfg : Config) (d : Rec) : Bool :=
  report_dict_passes_essential_filters cfg d == some false

/-- Satisfies both the essential and the non-essential predicate. -/
def bothB (cfg : Config) (d : Rec) : Bool :=
  essB cfg d && report_dict_passes_non_essential_filters cfg d

/-- Satisfies the essential predicate but not the non-essential one. -/
def essOnlyB (cfg : Config) (d : Rec) : Bool :=
  essB cfg d && !report_dict_passes_non_essential_filters cfg d

/-- The demotion of `_filter_list_of_dicts`: every variant-specific column
of the record is overwritten with the sentinel `"."`
(`for key in report.var_columns: new_d[key] = '.'`). -/
def demoteRec (d : Rec) : Rec :=
  { d with var_fields := d.var_fields.map (fun _ => ".") }

/-- The single classification pass of `_filter_list_of_dicts` (lines
131-138): split the list into the records passing both predicates, those
passing only the essential one, and those failing the essential one,
preserving order.  A `TypeError` while evaluating the essential predicate
aborts the whole pass (`none`). -/
def partitionRecs (cfg : Config) : List Rec → Option (List Rec × List Rec × List Rec)
  | [] => some ([], [], [])
  | d :: ds =>
    match report_dict_passes_essential_filters cfg d with
    | none => none
    | some true =>
      match partitionRecs cfg ds with
      | none => none
      | some (p, e, f) =>
        if report_dict_passes_non_essential_filters cfg d then some (d :: p, e, f)
        else some (p, d :: e, f)
    | some false =>
      match partitionRecs cfg ds with
      | none => none
      | some (p, e, f) => some (p, e, d :: f)

/-- `ReportFilter._filter_list_of_dicts`: empty input yields an empty
result; otherwise classify the records, keep the full-pass bucket if it
is non-empty, and otherwise demote the first essential-only record (if
any) into a single surviving record.  The `assert` on line 141 is
modelled by the `none` on its failure branch. -/
def filter_list_of_dicts (cfg : Config) (l : List Rec) : Option (List Rec) :=
  if l.isEmpty then some []
  else
    match partitionRecs cfg l with
    | none => none
    | some (passD, essD, failD) =>
      if passD.isEmpty then
        if failD.length + essD.length > 0 then
          match essD with
          | [] => some []
          | d0 :: _ => some [demoteRec d0]
        else none
      else some passD

/-- Contig name → ordered list of records (`self.report[ref_name]`). -/
abbrev CtgMap := List (String × List Rec)

/-- The whole report: reference name → contig name → records
(`self.report`), a Python dict modelled as an association list in
insertion order. -/
abbrev Collection := List (String × CtgMap)

/-- Python dict lookup on an association list (first matching key). -/
def alookup {β : Type} : List (String × β) → String → Option β
  | [], _ => none
  | p :: t, k => if p.1 = k then some p.2 else alookup t k

/-- Lookup of a group: `self.report[ref_name][ctg_name]`. -/
def collLookup (c : Collection) (ref ctg : String) : Option (List Rec) :=
  (alookup c ref).bind (fun m => alookup m ctg)

/-- The per-reference loop body of `_filter_dicts` (line 158): replace
every group's list by its filtered list.  A raise inside
`_filter_list_of_dicts` aborts the whole operation (`none`). -/
def filterGroupsCtg (cfg : Config) : CtgMap → Option CtgMap
  | [] => some []
  | (ctg, l) :: t =>
    (filter_list_of_dicts cfg l).bind (fun l' =>
      (filterGroupsCtg cfg t).map (fun t' => (ctg, l') :: t'))

/-- The outer loop of `_filter_dicts` over the references. -/
def filterGroupsRef (cfg : Config) : Collection → Option Collection
  | [] => some []
  | (ref, m) :: t =>
    (filterGroupsCtg cfg m).bind (fun m' =>
      (filterGroupsRef cfg t).map (fun t' => (ref, m') :: t'))

/-- The pruning step of `_filter_dicts` on one reference entry: drop the
`(ref_name, ctg_name)` keys whose filtered list became empty and drop the
reference itself when those removals emptied its contig dict (a reference
whose contig dict was empty before the loops is never touched). -/
def pruneRef (rm : String × CtgMap) : Option (String × CtgMap) :=
  let m2 := rm.2.filter (fun cl => !cl.2.isEmpty)
  if m2.isEmpty && !rm.2.isEmpty then none else some (rm.1, m2)

/-- `ReportFilter._filter_dicts`: filter every group, then prune empty
groups and the references they empty out. -/
def filter_dicts (cfg : Config) (c : Collection) : Option Collection :=
  (filterGroupsRef cfg c).map (fun c1 => c1.filterMap pruneRef)

/-! ### Characterization of the classification pass -/

theorem partitionRecs_some_isSome (cfg : Config) :
    ∀ (l : List Rec) (t : List Rec × List Rec × List Rec),
      partitionRecs cfg l = some t →
      ∀ d ∈ l, (report_dict_passes_essential_filters cfg d).isSome
  | [], _, _ => by intro d hd; cases hd
  | d :: ds, t, h => by
    intro x hx
    unfold partitionRecs at h
    cases h1 : report_dict_passes_essential_filters cfg d with
    | none => rw [h1] at h; cases h
    | some b =>
      rw [h1] at h
      cases hx with
      | head => simp [h1]
      | tail _ hx' =>
        cases h2 : partitionRecs cfg ds with
        | none =>
          rw [h2] at h
          cases b <;> simp at h
        | some t' =>
          exact partitionRecs_some_isSome cfg ds t' h2 x hx'

theorem partitionRecs_eq (cfg : Config) :
    ∀ (l : List Rec),
      (∀ d ∈ l, (report_dict_passes_essential_filters cfg d).isSome) →
      partitionRecs cfg l =
        some (l.filter (bothB cfg), l.filter (essOnlyB cfg), l.filter (failB cfg))
  | [], _ => by simp [partitionRecs]
  | d :: ds, h => by
    have hd := h d (List.mem_cons_self d ds)
    have hds := partitionRecs_eq cfg ds (fun x hx => h x (List.mem_cons_of_mem d hx))
    obtain ⟨b, hb⟩ := Option.isSome_iff_exists.mp hd
    unfold partitionRecs
    rw [hb, hds]
    cases b with
    | true =>
      by_cases hne : report_dict_passes_non_essential_filters cfg d = true
      · simp [hne, List.filter_cons, bothB, essOnlyB, failB, essB, hb]
      · simp only [Bool.not_eq_true] at hne
        simp [hne, List.filter_cons, bothB, essOnlyB, failB, essB, hb]
    | false =>
      simp [List.filter_cons, bothB, essOnlyB, failB, essB, hb]

theorem partitionRecs_sound (cfg : Config) (l p e f : List Rec)
    (h : partitionRecs cfg l = some (p, e, f)) :
    p = l.filter (bothB cfg) ∧ e = l.filter (essOnlyB cfg) ∧ f = l.filter (failB cfg) := by
  have hs := partitionRecs_some_isSome cfg l (p, e, f) h
  rw [partitionRecs_eq cfg l hs] at h
  injection h with h'
  have h'' := h'.symm
  exact ⟨congrArg (·.1) h'', congrArg (·.2.1) h'', congrArg (·.2.2) h''⟩

theorem filter_lengths_sum (cfg : Config) :
    ∀ (l : List Rec),
      (∀ d ∈ l, (report_dict_passes_essential_filters cfg d).isSome) →
      (l.filter (bothB cfg)).length + (l.filter (essOnlyB cfg)).length
        + (l.filter (failB cfg)).length = l.length
  | [], _ => by simp
  | d :: ds, h => by
    have hd := h d (List.mem_cons_self d ds)
    have ih := filter_lengths_sum cfg ds (fun x hx => h x (List.mem_cons_of_mem d hx))
    obtain ⟨b, hb⟩ := Option.isSome_iff_exists.mp hd
    cases b with
    | true =>
      by_cases hne : report_dict_passes_non_essential_filters cfg d = true
      · simp [List.filter_cons, bothB, essOnlyB, failB, essB, hb, hne]; omega
      · simp only [Bool.not_eq_true] at hne
        simp [List.filter_cons, bothB, essOnlyB, failB, essB, hb, hne]; omega
    | false =>
      simp [List.filter_cons, bothB, essOnlyB, failB, essB, hb]; omega

theorem head?_filter_eq_find? (p : Rec → Bool) :
    ∀ (l : List Rec), (l.filter p).head? = l.find? p
  | [] => rfl
  | d :: ds => by
    by_cases hp : p d = true
    · simp [List.filter_cons, hp, List.find?_cons_of_pos _ hp]
    · simp only [Bool.not_eq_true] at hp
      simp [List.filter_cons, hp, List.find?_cons_of_neg, head?_filter_eq_find? p ds]

/-- Every record of a group that `_filter_list_of_dicts` processed
without raising evaluated its essential predicate without a `TypeError`. -/
theorem isSome_of_filter_list_some (cfg : Config) (l out : List Rec)
    (hout : filter_list_of_dicts cfg l = some out) :
    ∀ d ∈ l, (report_dict_passes_essential_filters cfg d).isSome := by
  unfold filter_list_of_dicts at hout
  split at hout
  · intro d hd
    cases l with
    | nil => cases hd
    | cons x xs => simp [List.isEmpty_cons] at *
  · split at hout
    · cases hout
    · next heq => exact partitionRecs_some_isSome cfg l _ heq

/-- Closed-form evaluation of `_filter_list_of_dicts` in terms of the
three classification buckets, valid whenever no record raises. -/
theorem filter_list_eval (cfg : Config) (l : List Rec)
    (hsome : ∀ d ∈ l, (report_dict_passes_essential_filters cfg d).isSome) :
    filter_list_of_dicts cfg l =
      if (l.filter (bothB cfg)).isEmpty then
        (match l.filter (essOnlyB cfg) with
         | [] => some []
         | d0 :: _ => some [demoteRec d0])
      else some (l.filter (bothB cfg)) := by
  cases l with
  | nil => simp [filter_list_of_dicts]
  | cons x xs =>
    have hsum := filter_lengths_sum cfg (x :: xs) hsome
    unfold filter_list_of_dicts
    rw [partitionRecs_eq cfg (x :: xs) hsome]
    simp only [List.isEmpty_cons, Bool.false_eq_true, if_false]
    by_cases hp : ((x :: xs).filter (bothB cfg)).isEmpty = true
    · rw [hp]
      simp only [if_true]
      have hp' : (x :: xs).filter (bothB cfg) = [] := List.isEmpty_iff.mp hp
      rw [hp'] at hsum
      simp only [List.length_nil, List.length_cons] at hsum
      rw [if_pos (by omega)]
    · simp only [Bool.not_eq_true] at hp
      rw [hp]
      simp only [Bool.false_eq_true, if_false]

/-! ### Claims about the per-group selection (C1, C2, C10) -/

/-- C2: if at least one record of a group satisfies both the essential and
the non-essential predicate, `_filter_list_of_dicts` returns exactly the
order-preserved subsequence of records satisfying both predicates, with
no record modified and no demotion. -/
theorem c2_pass_bucket_exact (cfg : Config) (l out : List Rec) (d : Rec)
    (hmem : d ∈ l) (hboth : bothB cfg d = true)
    (hout : filter_list_of_dicts cfg l = some out) :
    out = l.filter (bothB cfg) := by
  rw [filter_list_eval cfg l (isSome_of_filter_list_some cfg l out hout)] at hout
  have hpne : ((l.filter (bothB cfg)).isEmpty) = false := by
    have : d ∈ l.filter (bothB cfg) := List.mem_filter.mpr ⟨hmem, hboth⟩
    cases hl : l.filter (bothB cfg) with
    | nil => rw [hl] at this; cases this
    | cons y ys => rfl
  rw [hpne] at hout
  simp only [Bool.false_eq_true, if_false, Option.some.injEq] at hout
  exact hout.symm

/-- C1: if no record of a group satisfies both predicates but some record
satisfies the essential predicate, `_filter_list_of_dicts` returns exactly
one record: the first essential-passing record in original order, with
every variant-specific field overwritten by the sentinel `"."`. -/
theorem c1_demote_first_essential (cfg : Config) (l out : List Rec) (d0 : Rec)
    (hno : ∀ d ∈ l, bothB cfg d = false)
    (hfind : l.find? (essB cfg) = some d0)
    (hout : filter_list_of_dicts cfg l = some out) :
    out = [demoteRec d0] := by
  rw [filter_list_eval cfg l (isSome_of_filter_list_some cfg l out hout)] at hout
  have hpemp : l.filter (bothB cfg) = [] :=
    List.filter_eq_nil_iff.mpr (fun d hd => by simp [hno d hd])
  have hessOnly : l.filter (essOnlyB cfg) = l.filter (essB cfg) := by
    apply List.filter_congr
    intro d hd
    by_cases hess : essB cfg d = true
    · have hb := hno d hd
      rw [bothB, hess, Bool.true_and] at hb
      simp [essOnlyB, hess, hb]
    · simp only [Bool.not_eq_true] at hess
      simp [essOnlyB, hess]
  have heh : (l.filter (essOnlyB cfg)).head? = some d0 := by
    rw [hessOnly, head?_filter_eq_find?, hfind]
  rw [hpemp] at hout
  simp only [List.isEmpty_nil, if_true] at hout
  cases he : l.filter (essOnlyB cfg) with
  | nil => rw [he] at heh; cases heh
  | cons e0 es =>
    rw [he] at heh
    simp only [List.head?_cons, Option.some.injEq] at heh
    subst heh
    rw [he] at hout
    simp only [Option.some.injEq] at hout
    exact hout.symm

/-- C10: when `ignore_not_has_known_variant` is `False`, the non-essential
predicate holds for every record, so no record is demoted and the
filtered group is exactly the order-preserved subsequence of records
satisfying the essential predicate. -/
theorem c10_no_known_var_filter (cfg : Config) (l out : List Rec)
    (hign : cfg.ignore_not_has_known_variant = false)
    (hout : filter_list_of_dicts cfg l = some out) :
    out = l.filter (essB cfg) := by
  have hness : ∀ d : Rec, report_dict_passes_non_essential_filters cfg d = true := by
    intro d; simp [report_dict_passes_non_essential_filters, hign]
  have hbothB : l.filter (bothB cfg) = l.filter (essB cfg) :=
    List.filter_congr (fun d _ => by simp [bothB, hness])
  have hessOnly : l.filter (essOnlyB cfg) = [] :=
    List.filter_eq_nil_iff.mpr (fun d _ => by simp [essOnlyB, hness])
  rw [filter_list_eval cfg l (isSome_of_filter_list_some cfg l out hout)] at hout
  rw [hessOnly, hbothB] at hout
  by_cases hp : (l.filter (essB cfg)).isEmpty = true
  · rw [hp] at hout
    simp only [if_true, Option.some.injEq] at hout
    rw [← hout, List.isEmpty_iff.mp hp]
  · simp only [Bool.not_eq_true] at hp
    rw [hp] at hout
    simp only [Bool.false_eq_true, if_false, Option.some.injEq] at hout
    exact hout.symm

/-! ### Simple facts about demotion and the predicates -/

theorem demoteRec_essential (cfg : Config) (d : Rec) :
    report_dict_passes_essential_filters cfg (demoteRec d) =
      report_dict_passes_essential_filters cfg d := rfl

theorem demoteRec_non_essential (cfg : Config) (d : Rec) :
    report_dict_passes_non_essential_filters cfg (demoteRec d) =
      report_dict_passes_non_essential_filters cfg d := rfl

theorem demoteRec_demoteRec (d : Rec) : demoteRec (demoteRec d) = demoteRec d := by
  simp [demoteRec]

theorem essB_iff (cfg : Config) (d : Rec) :
    essB cfg d = true ↔ report_dict_passes_essential_filters cfg d = some true := by
  simp [essB]

theorem isSome_of_essB (cfg : Config) (d : Rec) (h : essB cfg d = true) :
    (report_dict_passes_essential_filters cfg d).isSome = true := by
  rw [essB_iff] at h
  simp [h]

theorem bool_and_parts {a b : Bool} (h : (a && b) = true) : a = true ∧ b = true := by
  simp only [Bool.and_eq_true] at h
  exact h

/-- Every record returned by `_filter_list_of_dicts` satisfies the
essential predicate. -/
theorem filter_list_out_essential (cfg : Config) (l out : List Rec)
    (hout : filter_list_of_dicts cfg l = some out) :
    ∀ r ∈ out, essB cfg r = true := by
  have hsome := isSome_of_filter_list_some cfg l out hout
  rw [filter_list_eval cfg l hsome] at hout
  by_cases hp : ((l.filter (bothB cfg)).isEmpty) = true
  · rw [hp] at hout
    simp only [if_true] at hout
    cases he : l.filter (essOnlyB cfg) with
    | nil =>
      rw [he] at hout
      injection hout with hout
      subst hout
      intro r hr; cases hr
    | cons d0 ds =>
      rw [he] at hout
      injection hout with hout
      subst hout
      intro r hr
      rcases List.mem_singleton.mp hr with rfl
      have hd0mem : d0 ∈ l.filter (essOnlyB cfg) := by
        rw [he]; exact List.mem_cons_self d0 ds
      have hd0 : essOnlyB cfg d0 = true := (List.mem_filter.mp hd0mem).2
      have hess : essB cfg d0 = true := (bool_and_parts hd0).1
      rw [essB_iff] at hess ⊢
      rw [demoteRec_essential]
      exact hess
  · simp only [Bool.not_eq_true] at hp
    rw [hp] at hout
    simp only [Bool.false_eq_true, if_false, Option.some.injEq] at hout
    subst hout
    intro r hr
    have hb : bothB cfg r = true := (List.mem_filter.mp hr).2
    exact (bool_and_parts hb).1

/-- Every record returned by `_filter_list_of_dicts` is an input record,
unmodified or demoted. -/
theorem filter_list_mem_origin (cfg : Config) (l out : List Rec)
    (hout : filter_list_of_dicts cfg l = some out) :
    ∀ r' ∈ out, ∃ r ∈ l, r' = r ∨ r' = demoteRec r := by
  have hsome := isSome_of_filter_list_some cfg l out hout
  rw [filter_list_eval cfg l hsome] at hout
  by_cases hp : ((l.filter (bothB cfg)).isEmpty) = true
  · rw [hp] at hout
    simp only [if_true] at hout
    cases he : l.filter (essOnlyB cfg) with
    | nil =>
      rw [he] at hout
      injection hout with hout
      subst hout
      intro r hr; cases hr
    | cons d0 ds =>
      rw [he] at hout
      injection hout with hout
      subst hout
      intro r hr
      rcases List.mem_singleton.mp hr with rfl
      have hd0mem : d0 ∈ l.filter (essOnlyB cfg) := by
        rw [he]; exact List.mem_cons_self d0 ds
      exact ⟨d0, (List.mem_filter.mp hd0mem).1, Or.inr rfl⟩
  · simp only [Bool.not_eq_true] at hp
    rw [hp] at hout
    simp only [Bool.false_eq_true, if_false, Option.some.injEq] at hout
    subst hout
    intro r hr
    exact ⟨r, (List.mem_filter.mp hr).1, Or.inl rfl⟩

/-- Filtering an already filtered group changes nothing. -/
theorem filter_list_idem (cfg : Config) (l out : List Rec)
    (hout : filter_list_of_dicts cfg l = some out) :
    filter_list_of_dicts cfg out = some out := by
  have hsome := isSome_of_filter_list_some cfg l out hout
  rw [filter_list_eval cfg l hsome] at hout
  by_cases hp : ((l.filter (bothB cfg)).isEmpty) = true
  · rw [hp] at hout
    simp only [if_true] at hout
    cases he : l.filter (essOnlyB cfg) with
    | nil =>
      rw [he] at hout
      injection hout with hout
      subst hout
      simp [filter_list_of_dicts]
    | cons d0 ds =>
      rw [he] at hout
      injection hout with hout
      subst hout
      have hd0mem : d0 ∈ l.filter (essOnlyB cfg) := by
        rw [he]; exact List.mem_cons_self d0 ds
      have hd0 : essOnlyB cfg d0 = true := (List.mem_filter.mp hd0mem).2
      have hess : essB cfg d0 = true := (bool_and_parts hd0).1
      have hnon : report_dict_passes_non_essential_filters cfg d0 = false := by
        have := (bool_and_parts hd0).2
        simpa using this
      have hessd : essB cfg (demoteRec d0) = true := by
        rw [essB_iff, demoteRec_essential]
        exact (essB_iff cfg d0).mp hess
      have hnond : report_dict_passes_non_essential_filters cfg (demoteRec d0) = false := by
        rw [demoteRec_non_essential]; exact hnon
      have hsome1 : ∀ d ∈ [demoteRec d0],
          (report_dict_passes_essential_filters cfg d).isSome := by
        intro d hd
        rcases List.mem_singleton.mp hd with rfl
        exact isSome_of_essB cfg _ hessd
      rw [filter_list_eval cfg [demoteRec d0] hsome1]
      have hboth : bothB cfg (demoteRec d0) = false := by
        simp [bothB, hnond]
      have hessOnlyd : essOnlyB cfg (demoteRec d0) = true := by
        simp [essOnlyB, hessd, hnond]
      simp [List.filter_cons, hboth, hessOnlyd, demoteRec_demoteRec]
  · simp only [Bool.not_eq_true] at hp
    rw [hp] at hout
    simp only [Bool.false_eq_true, if_false, Option.some.injEq] at hout
    subst hout
    have hall : ∀ r ∈ l.filter (bothB cfg), bothB cfg r = true :=
      fun r hr => (List.mem_filter.mp hr).2
    have hsome2 : ∀ d ∈ l.filter (bothB cfg),
        (report_dict_passes_essential_filters cfg d).isSome := by
      intro d hd
      exact isSome_of_essB cfg d (bool_and_parts (hall d hd)).1
    rw [filter_list_eval cfg _ hsome2]
    rw [List.filter_eq_self.mpr hall, hp]
    simp

/-! ### Association-list lemmas -/

theorem alookup_mem {β : Type} :
    ∀ (l : List (String × β)) (k : String) (v : β),
      alookup l k = some v → (k, v) ∈ l
  | [], _, _, h => by cases h
  | (k0, v0) :: t, k, v, h => by
    simp only [alookup] at h
    by_cases hk : k0 = k
    · subst hk
      rw [if_pos rfl] at h
      injection h with h
      subst h
      exact List.mem_cons_self _ _
    · rw [if_neg hk] at h
      exact List.mem_cons_of_mem _ (alookup_mem t k v h)

theorem alookup_eq_none_of_not_mem {β : Type} :
    ∀ (l : List (String × β)) (k : String), k ∉ l.map Prod.fst → alookup l k = none
  | [], _, _ => rfl
  | (k0, v0) :: t, k, h => by
    simp only [List.map_cons, List.mem_cons] at h
    push_neg at h
    simp only [alookup]
    rw [if_neg (fun hk => h.1 hk.symm)]
    exact alookup_eq_none_of_not_mem t k h.2

theorem mem_of_forall2 {α β : Type} {R : α → β → Prop} :
    ∀ (l1 : List α) (l2 : List β), List.Forall₂ R l1 l2 →
      ∀ b ∈ l2, ∃ a ∈ l1, R a b
  | _, _, .nil, b, hb => by cases hb
  | a :: t1, b0 :: t2, .cons hab hrest, b, hb => by
    cases hb with
    | head => exact ⟨a, List.mem_cons_self a t1, hab⟩
    | tail _ hb' =>
      obtain ⟨x, hx, hR⟩ := mem_of_forall2 t1 t2 hrest b hb'
      exact ⟨x, List.mem_cons_of_mem a hx, hR⟩

theorem keys_eq_of_forall2 {β γ : Type} {S : β → γ → Prop} :
    ∀ (c : List (String × β)) (c1 : List (String × γ)),
      List.Forall₂ (fun p q => q.1 = p.1 ∧ S p.2 q.2) c c1 →
      c1.map Prod.fst = c.map Prod.fst
  | _, _, .nil => rfl
  | p :: t, q :: t1, .cons hpq hrest => by
    simp only [List.map_cons]
    rw [hpq.1, keys_eq_of_forall2 t t1 hrest]

theorem alookup_forall2_some {β γ : Type} {S : β → γ → Prop} :
    ∀ (c : List (String × β)) (c1 : List (String × γ)),
      List.Forall₂ (fun p q => q.1 = p.1 ∧ S p.2 q.2) c c1 →
      ∀ (k : String) (v : β), alookup c k = some v →
        ∃ w, alookup c1 k = some w ∧ S v w
  | _, _, .nil, k, v, h => by cases h
  | (k0, v0) :: t, (k1, w0) :: t1, .cons hpq hrest, k, v, h => by
    obtain ⟨hk, hS⟩ := hpq
    simp only at hk
    simp only [alookup] at h ⊢
    rw [hk]
    by_cases hkk : k0 = k
    · rw [if_pos hkk] at h ⊢
      injection h with h
      subst h
      exact ⟨w0, rfl, hS⟩
    · rw [if_neg hkk] at h ⊢
      exact alookup_forall2_some t t1 hrest k v h

theorem alookup_forall2_some_rev {β γ : Type} {S : β → γ → Prop} :
    ∀ (c : List (String × β)) (c1 : List (String × γ)),
      List.Forall₂ (fun p q => q.1 = p.1 ∧ S p.2 q.2) c c1 →
      ∀ (k : String) (w : γ), alookup c1 k = some w →
        ∃ v, alookup c k = some v ∧ S v w
  | _, _, .nil, k, w, h => by cases h
  | (k0, v0) :: t, (k1, w0) :: t1, .cons hpq hrest, k, w, h => by
    obtain ⟨hk, hS⟩ := hpq
    simp only at hk
    simp only [alookup] at h ⊢
    rw [hk] at h
    by_cases hkk : k0 = k
    · rw [if_pos hkk] at h ⊢
      injection h with h
      subst h
      exact ⟨v0, rfl, hS⟩
    · rw [if_neg hkk] at h ⊢
      exact alookup_forall2_some_rev t t1 hrest k w h

theorem mem_keys_filterMap {β γ : Type} (F : String × β → Option (String × γ))
    (hkey : ∀ p q, F p = some q → q.1 = p.1) :
    ∀ (l : List (String × β)) (k : String),
      k ∈ (l.filterMap F).map Prod.fst → k ∈ l.map Prod.fst
  | [], k, h => by cases h
  | p :: t, k, h => by
    simp only [List.filterMap_cons] at h
    cases hF : F p with
    | none =>
      rw [hF] at h
      exact List.mem_cons_of_mem _ (mem_keys_filterMap F hkey t k h)
    | some q =>
      rw [hF] at h
      simp only [List.map_cons, List.mem_cons] at h
      cases h with
      | inl h => rw [h, hkey p q hF]; exact List.mem_cons_self _ _
      | inr h => exact List.mem_cons_of_mem _ (mem_keys_filterMap F hkey t k h)

theorem alookup_filterMap {β γ : Type} (F : String × β → Option (String × γ))
    (hkey : ∀ p q, F p = some q → q.1 = p.1) :
    ∀ (l : List (String × β)), (l.map Prod.fst).Nodup → ∀ k,
      alookup (l.filterMap F) k = (alookup l k).bind (fun v => (F (k, v)).map Prod.snd)
  | [], _, k => by simp [alookup]
  | (k0, v0) :: t, hnd, k => by
    simp only [List.map_cons, List.nodup_cons] at hnd
    obtain ⟨hk0, hndt⟩ := hnd
    simp only [List.filterMap_cons]
    by_cases hkk : k0 = k
    · subst hkk
      cases hF : F (k0, v0) with
      | none =>
        have hnone : alookup (t.filterMap F) k0 = none :=
          alookup_eq_none_of_not_mem _ _
            (fun hmem => hk0 (mem_keys_filterMap F hkey t k0 hmem))
        simp [alookup, hF, hnone]
      | some q =>
        obtain ⟨q1, q2⟩ := q
        have hq1 := hkey _ _ hF
        simp only at hq1
        subst hq1
        simp [alookup, hF]
    · cases hF : F (k0, v0) with
      | none =>
        simp only [alookup, if_neg hkk]
        exact alookup_filterMap F hkey t hndt k
      | some q =>
        obtain ⟨q1, q2⟩ := q
        have hq1 := hkey _ _ hF
        simp only at hq1
        subst hq1
        simp only [alookup, if_neg hkk]
        exact alookup_filterMap F hkey t hndt k

theorem alookup_filter {β : Type} (P : String × β → Bool) :
    ∀ (l : List (String × β)), (l.map Prod.fst).Nodup → ∀ k,
      alookup (l.filter P) k =
        (alookup l k).bind (fun v => if P (k, v) then some v else none)
  | [], _, k => by simp [alookup]
  | (k0, v0) :: t, hnd, k => by
    simp only [List.map_cons, List.nodup_cons] at hnd
    obtain ⟨hk0, hndt⟩ := hnd
    simp only [List.filter_cons]
    by_cases hkk : k0 = k
    · subst hkk
      by_cases hP : P (k0, v0) = true
      · simp [alookup, hP]
      · simp only [Bool.not_eq_true] at hP
        have hnone : alookup (t.filter P) k0 = none := by
          apply alookup_eq_none_of_not_mem
          intro hmem
          apply hk0
          obtain ⟨p, hp, hpx⟩ := List.mem_map.mp hmem
          exact List.mem_map.mpr ⟨p, List.mem_of_mem_filter hp, hpx⟩
        simp [alookup, hP, hnone]
    · by_cases hP : P (k0, v0) = true
      · rw [hP]
        simp only [if_true, alookup, if_neg hkk]
        exact alookup_filter P t hndt k
      · simp only [Bool.not_eq_true] at hP
        rw [hP]
        simp only [Bool.false_eq_true, if_false, alookup, if_neg hkk]
        exact alookup_filter P t hndt k

/-! ### The loop translations as a `Forall₂` relation -/

theorem filterGroupsCtg_forall2 (cfg : Config) :
    ∀ (m m1 : CtgMap), filterGroupsCtg cfg m = some m1 →
      List.Forall₂
        (fun cl cl' => cl'.1 = cl.1 ∧ filter_list_of_dicts cfg cl.2 = some cl'.2) m m1
  | [], m1, h => by
    simp only [filterGroupsCtg, Option.some.injEq] at h
    subst h
    constructor
  | (ctg, l) :: t, m1, h => by
    simp only [filterGroupsCtg, Option.bind_eq_some, Option.map_eq_some'] at h
    obtain ⟨l', hl', t', ht', rfl⟩ := h
    exact List.Forall₂.cons ⟨rfl, hl'⟩ (filterGroupsCtg_forall2 cfg t t' ht')

theorem filterGroupsRef_forall2 (cfg : Config) :
    ∀ (c c1 : Collection), filterGroupsRef cfg c = some c1 →
      List.Forall₂
        (fun rm rm' => rm'.1 = rm.1 ∧ filterGroupsCtg cfg rm.2 = some rm'.2) c c1
  | [], c1, h => by
    simp only [filterGroupsRef, Option.some.injEq] at h
    subst h
    constructor
  | (ref, m) :: t, c1, h => by
    simp only [filterGroupsRef, Option.bind_eq_some, Option.map_eq_some'] at h
    obtain ⟨m', hm', t', ht', rfl⟩ := h
    exact List.Forall₂.cons ⟨rfl, hm'⟩ (filterGroupsRef_forall2 cfg t t' ht')

theorem filter_dicts_parts (cfg : Config) (c c' : Collection)
    (hf : filter_dicts cfg c = some c') :
    ∃ c1, filterGroupsRef cfg c = some c1 ∧ c' = c1.filterMap pruneRef := by
  simp only [filter_dicts, Option.map_eq_some'] at hf
  obtain ⟨c1, hc1, hc'⟩ := hf
  exact ⟨c1, hc1, hc'.symm⟩

theorem pruneRef_some (rm : String × CtgMap) (rm' : String × CtgMap)
    (h : pruneRef rm = some rm') :
    rm'.1 = rm.1 ∧ rm'.2 = rm.2.filter (fun cl => !cl.2.isEmpty) ∧
      ((rm.2.filter (fun cl => !cl.2.isEmpty)).isEmpty && !rm.2.isEmpty) = false := by
  unfold pruneRef at h
  by_cases hcond :
      ((rm.2.filter (fun cl => !cl.2.isEmpty)).isEmpty && !rm.2.isEmpty) = true
  · rw [if_pos hcond] at h
    cases h
  · rw [if_neg hcond] at h
    injection h with h
    subst h
    simp only [Bool.not_eq_true] at hcond
    exact ⟨rfl, rfl, hcond⟩

/-! ### C3: the post-filter invariant -/

/-- C3: after `_filter_dicts` completes, every reference still present
maps to a non-empty contig dict, every contig still present maps to a
non-empty record list, and every retained record satisfies the essential
predicate.  The hypothesis `hne` is the data-model invariant that no
loaded reference has an empty contig dict (the loader only creates a
reference entry when inserting a record under it). -/
theorem c3_post_filter_invariant (cfg : Config) (c c' : Collection)
    (hne : ∀ rm ∈ c, rm.2 ≠ ([] : CtgMap))
    (hf : filter_dicts cfg c = some c') :
    ∀ rm ∈ c', rm.2 ≠ ([] : CtgMap) ∧
      ∀ cl ∈ rm.2, cl.2 ≠ ([] : List Rec) ∧ ∀ r ∈ cl.2, essB cfg r = true := by
  obtain ⟨c1, hc1, rfl⟩ := filter_dicts_parts cfg c c' hf
  have hforall := filterGroupsRef_forall2 cfg c c1 hc1
  intro rm' hrm'
  obtain ⟨rm1, hrm1, hF⟩ := List.mem_filterMap.mp hrm'
  obtain ⟨hkey, hval, hcond⟩ := pruneRef_some rm1 rm' hF
  obtain ⟨rm0, hrm0, hR0⟩ := mem_of_forall2 c c1 hforall rm1 hrm1
  have hctg0 : filterGroupsCtg cfg rm0.2 = some rm1.2 := hR0.2
  constructor
  · intro hempty
    rw [hval] at hempty
    have h1 : (rm1.2.filter (fun cl => !cl.2.isEmpty)).isEmpty = true := by
      rw [hempty]; rfl
    rw [h1] at hcond
    simp only [Bool.true_and, Bool.not_eq_false'] at hcond
    have hlen := (filterGroupsCtg_forall2 cfg rm0.2 rm1.2 hctg0).length_eq
    have : rm0.2 = [] := by
      have : rm1.2 = [] := List.isEmpty_iff.mp hcond
      rw [this] at hlen
      exact List.eq_nil_of_length_eq_zero hlen
    exact hne rm0 hrm0 this
  · intro cl hcl
    rw [hval] at hcl
    have hclm := List.mem_filter.mp hcl
    have hclne : cl.2 ≠ [] := by
      intro h0
      have := hclm.2
      rw [h0] at this
      simp at this
    refine ⟨hclne, ?_⟩
    obtain ⟨cl0, hcl0, hR⟩ :=
      mem_of_forall2 rm0.2 rm1.2 (filterGroupsCtg_forall2 cfg rm0.2 rm1.2 hctg0)
        cl hclm.1
    exact filter_list_out_essential cfg cl0.2 cl.2 hR.2

/-! ### C6: idempotence -/

theorem filterMap_eq_self_of {α : Type} (F : α → Option α) :
    ∀ (l : List α), (∀ x ∈ l, F x = some x) → l.filterMap F = l
  | [], _ => rfl
  | x :: t, h => by
    simp only [List.filterMap_cons, h x (List.mem_cons_self x t)]
    rw [filterMap_eq_self_of F t (fun y hy => h y (List.mem_cons_of_mem x hy))]

theorem filterGroupsCtg_id (cfg : Config) :
    ∀ (m : CtgMap), (∀ cl ∈ m, filter_list_of_dicts cfg cl.2 = some cl.2) →
      filterGroupsCtg cfg m = some m
  | [], _ => rfl
  | (ctg, l) :: t, h => by
    have h0 := h (ctg, l) (List.mem_cons_self _ _)
    simp only [filterGroupsCtg, h0, Option.some_bind]
    rw [filterGroupsCtg_id cfg t (fun cl hcl => h cl (List.mem_cons_of_mem _ hcl))]
    rfl

theorem filterGroupsRef_id (cfg : Config) :
    ∀ (c : Collection), (∀ rm ∈ c, filterGroupsCtg cfg rm.2 = some rm.2) →
      filterGroupsRef cfg c = some c
  | [], _ => rfl
  | (ref, m) :: t, h => by
    have h0 := h (ref, m) (List.mem_cons_self _ _)
    simp only [filterGroupsRef, h0, Option.some_bind]
    rw [filterGroupsRef_id cfg t (fun rm hrm => h rm (List.mem_cons_of_mem _ hrm))]
    rfl

/-- C6: filtering is idempotent — applying `_filter_dicts` to its own
output (same configuration) returns that output unchanged. -/
theorem c6_filter_idempotent (cfg : Config) (c c' : Collection)
    (hf : filter_dicts cfg c = some c') :
    filter_dicts cfg c' = some c' := by
  obtain ⟨c1, hc1, rfl⟩ := filter_dicts_parts cfg c c' hf
  have hforall := filterGroupsRef_forall2 cfg c c1 hc1
  have hgroups : ∀ rm' ∈ c1.filterMap pruneRef, ∀ cl ∈ rm'.2,
      filter_list_of_dicts cfg cl.2 = some cl.2 ∧ cl.2 ≠ ([] : List Rec) := by
    intro rm' hrm' cl hcl
    obtain ⟨rm1, hrm1, hF⟩ := List.mem_filterMap.mp hrm'
    obtain ⟨hkey, hval, hcond⟩ := pruneRef_some rm1 rm' hF
    rw [hval] at hcl
    have hclm := List.mem_filter.mp hcl
    obtain ⟨rm0, hrm0, hR⟩ := mem_of_forall2 c c1 hforall rm1 hrm1
    obtain ⟨cl0, hcl0, hR2⟩ :=
      mem_of_forall2 rm0.2 rm1.2 (filterGroupsCtg_forall2 cfg rm0.2 rm1.2 hR.2)
        cl hclm.1
    refine ⟨filter_list_idem cfg cl0.2 cl.2 hR2.2, ?_⟩
    intro h0
    have := hclm.2
    rw [h0] at this
    simp at this
  have href : filterGroupsRef cfg (c1.filterMap pruneRef) = some (c1.filterMap pruneRef) := by
    apply filterGroupsRef_id
    intro rm hrm
    exact filterGroupsCtg_id cfg rm.2 (fun cl hcl => (hgroups rm hrm cl hcl).1)
  have hprune : ∀ rm' ∈ c1.filterMap pruneRef, pruneRef rm' = some rm' := by
    intro rm' hrm'
    have hself : rm'.2.filter (fun cl => !cl.2.isEmpty) = rm'.2 := by
      apply List.filter_eq_self.mpr
      intro cl hcl
      have := (hgroups rm' hrm' cl hcl).2
      simpa using this
    simp only [pruneRef, hself, Bool.and_not_self]
    rfl
  rw [filter_dicts, href]
  simp only [Option.map_some', Option.some.injEq]
  exact filterMap_eq_self_of pruneRef _ hprune

/-! ### C4: groups with no essential-passing record are pruned -/

theorem pruneRef_key (p q : String × CtgMap) (h : pruneRef p = some q) : q.1 = p.1 :=
  (pruneRef_some p q h).1

/-- C4: a group none of whose records satisfies the essential predicate is
absent from the filtered collection, and when it was the only contig of
its reference the reference key is absent as well.  The `Nodup`
hypotheses are the Python-dict invariant that keys are unique. -/
theorem c4_failing_group_removed (cfg : Config) (c c' : Collection)
    (ref ctg : String) (m : CtgMap) (lst : List Rec)
    (hndo : (c.map Prod.fst).Nodup)
    (hndi : ∀ rm ∈ c, (rm.2.map Prod.fst).Nodup)
    (hm : alookup c ref = some m) (hlst : alookup m ctg = some lst)
    (hfail : ∀ r ∈ lst, essB cfg r = false)
    (hf : filter_dicts cfg c = some c') :
    collLookup c' ref ctg = none ∧
      ((∀ cl ∈ m, cl.1 = ctg) → alookup c' ref = none) := by
  obtain ⟨c1, hc1, rfl⟩ := filter_dicts_parts cfg c c' hf
  have hforall := filterGroupsRef_forall2 cfg c c1 hc1
  have hnd1 : (c1.map Prod.fst).Nodup := by
    rw [keys_eq_of_forall2 (S := fun a b => filterGroupsCtg cfg a = some b) c c1 hforall]; exact hndo
  obtain ⟨m1, hm1, hSm⟩ := alookup_forall2_some (S := fun a b => filterGroupsCtg cfg a = some b) c c1 hforall ref m hm
  have hfc := filterGroupsCtg_forall2 cfg m m1 hSm
  have hndm : (m.map Prod.fst).Nodup := hndi (ref, m) (alookup_mem c ref m hm)
  have hndm1 : (m1.map Prod.fst).Nodup := by
    rw [keys_eq_of_forall2 (S := fun a b => filter_list_of_dicts cfg a = some b) m m1 hfc]; exact hndm
  obtain ⟨lst1, hlst1, hSl⟩ := alookup_forall2_some (S := fun a b => filter_list_of_dicts cfg a = some b) m m1 hfc ctg lst hlst
  have hlst1nil : lst1 = [] := by
    have hsome := isSome_of_filter_list_some cfg lst lst1 hSl
    rw [filter_list_eval cfg lst hsome] at hSl
    have hboth : lst.filter (bothB cfg) = [] :=
      List.filter_eq_nil_iff.mpr (fun r hr => by simp [bothB, hfail r hr])
    have honly : lst.filter (essOnlyB cfg) = [] :=
      List.filter_eq_nil_iff.mpr (fun r hr => by simp [essOnlyB, hfail r hr])
    rw [hboth, honly] at hSl
    simp only [List.isEmpty_nil, if_true] at hSl
    injection hSl with hSl
    exact hSl.symm
  subst hlst1nil
  have halo : alookup (c1.filterMap pruneRef) ref = (pruneRef (ref, m1)).map Prod.snd := by
    rw [alookup_filterMap pruneRef pruneRef_key c1 hnd1 ref, hm1]
    rfl
  have hm2 : alookup (m1.filter (fun cl => !cl.2.isEmpty)) ctg = none := by
    rw [alookup_filter _ m1 hndm1 ctg, hlst1]
    simp
  constructor
  · simp only [collLookup, halo, pruneRef]
    by_cases hcond : ((m1.filter (fun cl => !cl.2.isEmpty)).isEmpty && !m1.isEmpty) = true
    · simp [hcond]
    · simp [hcond, hm2]
  · intro honlyc
    have hmshape : m = [(ctg, lst)] := by
      cases hmm : m with
      | nil => rw [hmm] at hlst; cases hlst
      | cons a t =>
        obtain ⟨a1, a2⟩ := a
        have ha1 : a1 = ctg := honlyc (a1, a2) (by rw [hmm]; exact List.mem_cons_self _ _)
        cases htt : t with
        | nil =>
          rw [hmm, htt] at hlst
          simp only [alookup] at hlst
          rw [if_pos ha1] at hlst
          injection hlst with hlst
          rw [ha1, hlst]
        | cons b t2 =>
          exfalso
          obtain ⟨b1, b2⟩ := b
          have hb1 : b1 = ctg :=
            honlyc (b1, b2) (by rw [hmm, htt]; exact List.mem_cons_of_mem _ (List.mem_cons_self _ _))
          rw [hmm, htt] at hndm
          simp only [List.map_cons, List.nodup_cons, List.mem_cons] at hndm
          exact hndm.1 (Or.inl (by rw [ha1, hb1]))
    subst hmshape
    rcases hfc with _ | ⟨hq, hnil⟩
    rename_i q t1
    cases hnil
    obtain ⟨q1, q2⟩ := q
    obtain ⟨hq1, hq2⟩ := hq
    simp only at hq1
    subst hq1
    have hq2nil : q2 = [] := by
      simp only [alookup] at hlst1
      simpa using hlst1
    subst hq2nil
    rw [halo]
    simp [pruneRef, List.filter_cons]

/-! ### C9: non-variant fields are never changed -/

/-- C9: every record surviving `_filter_dicts` descends from a loaded
record of the same group, and all its non-variant fields (reference name,
contig name, flag, percent identity, reference bases assembled,
`has_known_var`) are unchanged; only a demoted record's variant fields
can differ. -/
theorem c9_frame_nonvariant_fields (cfg : Config) (c c' : Collection)
    (ref ctg : String) (lst' : List Rec)
    (hndo : (c.map Prod.fst).Nodup)
    (hndi : ∀ rm ∈ c, (rm.2.map Prod.fst).Nodup)
    (hf : filter_dicts cfg c = some c')
    (hlk : collLookup c' ref ctg = some lst') :
    ∃ lst, collLookup c ref ctg = some lst ∧
      ∀ r' ∈ lst', ∃ r ∈ lst,
        r'.ref_name = r.ref_name ∧ r'.ctg = r.ctg ∧ r'.flag = r.flag ∧
        r'.pc_ident = r.pc_ident ∧ r'.ref_base_assembled = r.ref_base_assembled ∧
        r'.has_known_var = r.has_known_var := by
  obtain ⟨c1, hc1, rfl⟩ := filter_dicts_parts cfg c c' hf
  have hforall := filterGroupsRef_forall2 cfg c c1 hc1
  have hnd1 : (c1.map Prod.fst).Nodup := by
    rw [keys_eq_of_forall2 (S := fun a b => filterGroupsCtg cfg a = some b) c c1 hforall]; exact hndo
  rw [collLookup, alookup_filterMap pruneRef pruneRef_key c1 hnd1 ref] at hlk
  cases hm1 : alookup c1 ref with
  | none => rw [hm1] at hlk; cases hlk
  | some m1 =>
    rw [hm1, Option.some_bind] at hlk
    cases hq : pruneRef (ref, m1) with
    | none => rw [hq] at hlk; cases hlk
    | some q =>
      rw [hq] at hlk
      simp only [Option.map_some', Option.some_bind] at hlk
      obtain ⟨hqkey, hqval, hqcond⟩ := pruneRef_some (ref, m1) q hq
      obtain ⟨m, hm, hSm⟩ := alookup_forall2_some_rev (S := fun a b => filterGroupsCtg cfg a = some b) c c1 hforall ref m1 hm1
      have hfc := filterGroupsCtg_forall2 cfg m m1 hSm
      have hndm : (m.map Prod.fst).Nodup := hndi (ref, m) (alookup_mem c ref m hm)
      have hndm1 : (m1.map Prod.fst).Nodup := by
        rw [keys_eq_of_forall2 (S := fun a b => filter_list_of_dicts cfg a = some b) m m1 hfc]; exact hndm
      rw [hqval, alookup_filter _ m1 hndm1 ctg] at hlk
      cases hl1 : alookup m1 ctg with
      | none => rw [hl1] at hlk; cases hlk
      | some lst1 =>
        rw [hl1, Option.some_bind] at hlk
        have hlst1 : lst1 = lst' := by
          by_cases hP : (!lst1.isEmpty) = true
          · rw [if_pos hP] at hlk
            exact Option.some.inj hlk
          · rw [if_neg hP] at hlk
            cases hlk
        subst hlst1
        obtain ⟨lst, hlst, hSl⟩ := alookup_forall2_some_rev (S := fun a b => filter_list_of_dicts cfg a = some b) m m1 hfc ctg lst1 hl1
        refine ⟨lst, by rw [collLookup, hm, Option.some_bind, hlst], ?_⟩
        intro r' hr'
        obtain ⟨r, hr, hor⟩ := filter_list_mem_origin cfg lst lst1 hSl r' hr'
        refine ⟨r, hr, ?_⟩
        cases hor with
        | inl h => subst h; exact ⟨rfl, rfl, rfl, rfl, rfl, rfl⟩
        | inr h => subst h; exact ⟨rfl, rfl, rfl, rfl, rfl, rfl⟩

/-! ### Concrete witness data -/

/-- A record passing both predicates under the default configuration. -/
def wPass : Rec := ⟨"ref1", "ctg1", ⟨0⟩, .num ⟨9542, 2⟩, .num 10, "1", ["v1", "v2"]⟩

/-- A record passing only the essential predicate (`has_known_var = "0"`). -/
def wEssOnly : Rec := ⟨"ref1", "ctg1", ⟨0⟩, .num ⟨95, 0⟩, .num 10, "0", ["w1", "w2"]⟩

/-- A second essential-only record, later in original order. -/
def wEssOnly2 : Rec := ⟨"ref1", "ctg1", ⟨0⟩, .num ⟨93, 0⟩, .num 5, "0", ["u1", "u2"]⟩

/-- A record failing the essential predicate (its flag has `assembly_fail`). -/
def wFail : Rec := ⟨"ref1", "ctg1", ⟨1⟩, .num ⟨99, 0⟩, .num 10, "1", ["x1", "x2"]⟩

def wListC1 : List Rec := [wFail, wEssOnly, wEssOnly2]

def wOutC1 : List Rec := (filter_list_of_dicts defaultConfig wListC1).getD []

def wListC2 : List Rec := [wFail, wEssOnly, wPass]

def wOutC2 : List Rec := (filter_list_of_dicts defaultConfig wListC2).getD []

/-- The default configuration with `ignore_not_has_known_variant=False`. -/
def cfgNoVar : Config := ⟨90, 1, false, ["assembly_fail", "ref_seq_choose_fail"]⟩

def wListC10 : List Rec := [wFail, wEssOnly]

def wOutC10 : List Rec := (filter_list_of_dicts cfgNoVar wListC10).getD []

/-- A small collection with a demotion group, a fully failing group, and a
fully failing reference. -/
def wColl : Collection :=
  [("ref1", [("ctg1", [wFail, wEssOnly]), ("ctg2", [wFail])]),
   ("ref2", [("ctgA", [wFail])])]

def wCollOut : Collection := (filter_dicts defaultConfig wColl).getD []

/-! ### Witnesses -/

theorem c1_demote_first_essential_witness :
    wOutC1 = [demoteRec wEssOnly] :=
  c1_demote_first_essential defaultConfig wListC1 wOutC1 wEssOnly
    (by decide) (by decide) (by decide)

theorem c2_pass_bucket_exact_witness :
    wOutC2 = wListC2.filter (bothB defaultConfig) :=
  c2_pass_bucket_exact defaultConfig wListC2 wOutC2 wPass
    (by decide) (by decide) (by decide)

theorem c10_no_known_var_filter_witness :
    wOutC10 = wListC10.filter (essB cfgNoVar) :=
  c10_no_known_var_filter cfgNoVar wListC10 wOutC10 rfl (by decide)

theorem c3_post_filter_invariant_witness :
    filter_dicts defaultConfig wColl = some wCollOut ∧
    ∀ rm ∈ wCollOut, rm.2 ≠ ([] : CtgMap) ∧
      ∀ cl ∈ rm.2, cl.2 ≠ ([] : List Rec) ∧ ∀ r ∈ cl.2, essB defaultConfig r = true :=
  ⟨by decide, c3_post_filter_invariant defaultConfig wColl wCollOut (by decide) (by decide)⟩

theorem c4_failing_group_removed_witness :
    collLookup wCollOut "ref2" "ctgA" = none ∧
      ((∀ cl ∈ [("ctgA", [wFail])], cl.1 = "ctgA") → alookup wCollOut "ref2" = none) :=
  c4_failing_group_removed defaultConfig wColl wCollOut "ref2" "ctgA"
    [("ctgA", [wFail])] [wFail]
    (by decide) (by decide) (by decide) (by decide) (by decide) (by decide)

theorem c6_filter_idempotent_witness :
    filter_dicts defaultConfig wCollOut = some wCollOut :=
  c6_filter_idempotent defaultConfig wColl wCollOut (by decide)

theorem c9_frame_nonvariant_fields_witness :
    ∃ lst, collLookup wColl "ref1" "ctg1" = some lst ∧
      ∀ r' ∈ [demoteRec wEssOnly], ∃ r ∈ lst,
        r'.ref_name = r.ref_name ∧ r'.ctg = r.ctg ∧ r'.flag = r.flag ∧
        r'.pc_ident = r.pc_ident ∧ r'.ref_base_assembled = r.ref_base_assembled ∧
        r'.has_known_var = r.has_known_var :=
  c9_frame_nonvariant_fields defaultConfig wColl wCollOut "ref1" "ctg1"
    [demoteRec wEssOnly] (by decide) (by decide) (by decide) (by decide)

/-! ### String and digit utilities (Python `split`, `join`, `rstrip`,
decimal numerals) -/

/-- Value of a list of decimal digit characters, most significant first. -/
def digitsVal (cs : List Char) : Nat :=
  cs.foldl (fun a c => 10 * a + (c.toNat - 48)) 0

/-- Python `int(...)` digit-string check: non-empty and all decimal digits. -/
def parseDigits (cs : List Char) : Option Nat :=
  if cs.isEmpty || !cs.all (·.isDigit) then none else some (digitsVal cs)

/-- Python `str.strip()` for numeric parsing: drop leading and trailing
whitespace. -/
def stripWs (cs : List Char) : List Char :=
  ((cs.dropWhile Char.isWhitespace).reverse.dropWhile Char.isWhitespace).reverse

/-- Drop trailing `'0'` characters (used to normalize a float literal's
fractional part: equal decimal literals denote the same Python float). -/
def dropTrailingZeros (cs : List Char) : List Char :=
  (cs.reverse.dropWhile (· = '0')).reverse

/-- Leading sign of a numeric literal: the sign factor and the
remaining characters. -/
def parseSign (cs : List Char) : Int × List Char :=
  match cs with
  | '-' :: r => (-1, r)
  | '+' :: r => (1, r)
  | r => (1, r)

/-- Python `int(s)`: optional sign then decimal digits, whitespace
ignored at both ends (underscore separators are outside the modelled
grammar). -/
def parseIntStr (s : String) : Option Int :=
  let p := parseSign (stripWs s.data)
  (parseDigits p.2).map (fun n : Nat => p.1 * (n : Int))

/-- Digit/point body of a float literal: `digits`, `digits.`,
`.digits` or `digits.digits`.  Trailing fractional zeros are normalized
away because equal decimal literals denote the same Python float
value. -/
def parseFloatBody (sgn : Int) (cs1 : List Char) : Option PyFloat :=
  let a := cs1.takeWhile (·.isDigit)
  match cs1.dropWhile (·.isDigit) with
  | [] => if a.isEmpty then none else some ⟨sgn * (digitsVal a : Int), 0⟩
  | '.' :: b =>
    if (a.isEmpty && b.isEmpty) || !b.all (·.isDigit) then none
    else
      let b' := dropTrailingZeros b
      some ⟨sgn * ((digitsVal a * 10 ^ b'.length + digitsVal b' : Nat) : Int), b'.length⟩
  | _ => none

/-- Python `float(s)` on the decimal forms with optional sign and
surrounding whitespace (exponent, `inf` and `nan` forms are outside the
modelled grammar). -/
def parsePyFloat (s : String) : Option PyFloat :=
  let p := parseSign (stripWs s.data)
  parseFloatBody p.1 p.2

/-- Decimal digit characters of a natural number, most significant
first, by fuel recursion (`fuel > n` suffices, so the fuel never runs
out). -/
def natStrGo : Nat → Nat → List Char
  | 0, _ => []
  | fuel + 1, n =>
    if n < 10 then [Char.ofNat (48 + n)]
    else natStrGo fuel (n / 10) ++ [Char.ofNat (48 + n % 10)]

/-- Decimal digit characters of a natural number, most significant
first (the digits of Python `str(n)`). -/
def natStrChars (n : Nat) : List Char := natStrGo (n + 1) n

/-- Python `str` of an `int`. -/
def pyIntStr (n : Int) : String :=
  if n < 0 then ⟨'-' :: natStrChars n.natAbs⟩ else ⟨natStrChars n.natAbs⟩

/-- Digit/point characters of the positional notation of a float of
magnitude `m / 10 ^ k`: the digits of `m`, zero-padded to at least
`k + 1` digits, with the decimal point inserted `k` places from the
right, and a single `0` fractional digit when `k = 0`. -/
def pyFloatCore (m k : Nat) : List Char :=
  let ds := natStrChars m
  if k = 0 then ds ++ ['.', '0']
  else
    let padded := List.replicate (k + 1 - ds.length) '0' ++ ds
    padded.take (padded.length - k) ++ '.' :: padded.drop (padded.length - k)

/-- Python `str` of a float in positional notation: always one decimal
point, at least one digit on each side (scientific notation for extreme
magnitudes is outside the modelled domain). -/
def pyFloatStr (f : PyFloat) : String :=
  if f.mant < 0 then ⟨'-' :: pyFloatCore f.mant.natAbs f.exp⟩
  else ⟨pyFloatCore f.mant.natAbs f.exp⟩

/-- Python `str` of a numeric column value: the sentinel keeps its
literal `"."`. -/
def numFieldStr {α : Type} (f : α → String) : NumField α → String
  | .dot => "."
  | .num x => f x

/-- Python `line.split('\t')` on the character list. -/
def splitTabs : List Char → List (List Char)
  | [] => [[]]
  | c :: r =>
    match splitTabs r with
    | [] => [[c]]
    | h :: t => if c = '\t' then [] :: h :: t else (c :: h) :: t

/-- Python `'\t'.join(...)` on character lists. -/
def joinTabs : List (List Char) → List Char
  | [] => []
  | [v] => v
  | v :: rest => v ++ '\t' :: joinTabs rest

/-- Python `line.split('\t')`. -/
def pySplitTab (s : String) : List String :=
  (splitTabs s.data).map (fun cs => ⟨cs⟩)

/-- Python `'\t'.join(values)`. -/
def pyJoinTab (vs : List String) : String :=
  ⟨joinTabs (vs.map String.data)⟩

/-- Python `line.rstrip()`: drop trailing whitespace. -/
def pyRstrip (s : String) : String :=
  ⟨(s.data.reverse.dropWhile Char.isWhitespace).reverse⟩

/-! ### The report schema and line parsing -/

/-- Modelled from the spec: `report.columns`, the fixed ordered schema
(the `ariba.report` module is not part of the given source).  The spec
names the non-variant fields — reference name, contig name, flag,
percent identity (the float column), reference bases assembled (the int
column), `has_known_var` — and a fixed set of variant-specific columns,
modelled here as the two trailing columns. -/
def columns : List String :=
  ["ref_name", "ctg", "flag", "pc_ident", "ref_base_assembled",
   "has_known_var", "known_var_change", "ref_ctg_effect"]

/-- The expected first line `'#' + '\t'.join(report.columns)`. -/
def headerLine : String := "#" ++ pyJoinTab columns

/-- Outcome of `_report_line_to_dict` on one data line. -/
inductive LineResult where
  | badCols
  | assertFail
  | valueError
  | okRec (r : Rec)
  deriving DecidableEq, Repr

/-- The `try: int(...) except: assert d[key] == '.'` coercion of an int
column: a parsed integer, the sentinel kept verbatim, or an
`AssertionError` (`none`). -/
def intCoerce (s : String) : Option (NumField Int) :=
  match parseIntStr s with
  | some n => some (.num n)
  | none => if s = "." then some .dot else none

/-- The same coercion for a float column. -/
def floatCoerce (s : String) : Option (NumField PyFloat) :=
  match parsePyFloat s with
  | some x => some (.num x)
  | none => if s = "." then some .dot else none

/-- `ReportFilter._report_line_to_dict`: split on tabs, return `None`
(here `badCols`) on a column-count mismatch, coerce the int columns then
the float columns (`AssertionError` on a non-sentinel failure), then
parse the flag from its integer encoding (uncaught `ValueError` on
failure). -/
def report_line_to_dict (line : String) : LineResult :=
  match pySplitTab line with
  | [refName, ctgName, flagS, pcS, rbaS, hkvS, var1, var2] =>
    match intCoerce rbaS with
    | none => .assertFail
    | some rba =>
      match floatCoerce pcS with
      | none => .assertFail
      | some pc =>
        match parseIntStr flagS with
        | none => .valueError
        | some fn => .okRec ⟨refName, ctgName, ⟨fn⟩, pc, rba, hkvS, [var1, var2]⟩
  | _ => .badCols

/-- `ReportFilter._dict_to_report_line`: `str` of every column value in
schema order, tab-joined.  `str` of the flag bitset is its integer
encoding (modelled from the spec: serialization is the inverse of
parsing). -/
def dict_to_report_line (d : Rec) : String :=
  pyJoinTab ([d.ref_name, d.ctg, pyIntStr d.flag.n, numFieldStr pyFloatStr d.pc_ident,
    numFieldStr pyIntStr d.ref_base_assembled, d.has_known_var] ++ d.var_fields)

/-! ### Loading and writing whole reports -/

/-- Outcome of `_load_report`.  `nameError` is what line 83 of the source
actually raises on a bad column count: the intended `Error` message
evaluates `len(data)`, but `data` is not defined in `_load_report`'s
scope (it is local to `_report_line_to_dict`), so Python raises
`NameError` before the `Error` is constructed. -/
inductive LoadResult where
  | ok (c : Collection)
  | headerError
  | nameError
  | assertError
  | valueError
  deriving DecidableEq, Repr

/-- `report_dict[ref_name][ctg_name].append(line_dict)` with dict keys
created on demand (new keys go to the end, as in a Python dict). -/
def appendToGroup : CtgMap → String → Rec → CtgMap
  | [], ctg, r => [(ctg, [r])]
  | (k, l) :: t, ctg, r =>
    if k = ctg then (k, l ++ [r]) :: t else (k, l) :: appendToGroup t ctg r

/-- Insert one parsed record into the nested report dict. -/
def insertRec : Collection → Rec → Collection
  | [], r => [(r.ref_name, [(r.ctg, [r])])]
  | (k, m) :: t, r =>
    if k = r.ref_name then (k, appendToGroup m r.ctg r) :: t
    else (k, m) :: insertRec t r

/-- The data-line loop of `_load_report`. -/
def loadData : Collection → List String → LoadResult
  | acc, [] => .ok acc
  | acc, line :: rest =>
    match report_line_to_dict (pyRstrip line) with
    | .badCols => .nameError
    | .assertFail => .assertError
    | .valueError => .valueError
    | .okRec r => loadData (insertRec acc r) rest

/-- `ReportFilter._load_report` over the file's lines: check the header
line, then parse and insert every data line (an empty file yields an
empty dict without a header check, exactly as the `first_line` flag
behaves). -/
def load_report : List String → LoadResult
  | [] => .ok []
  | first :: rest =>
    if pyRstrip first = headerLine then loadData [] rest else .headerError

/-- Insertion into a key-sorted association list (Python `sorted`,
comparing string keys lexicographically by code point; ties are
impossible between distinct dict keys). -/
def insertByKey {β : Type} (p : String × β) : List (String × β) → List (String × β)
  | [] => [p]
  | q :: t => if p.1 < q.1 then p :: q :: t else q :: insertByKey p t

/-- Sorting of dict items by key, as `sorted(...)` produces them. -/
def sortByKey {β : Type} : List (String × β) → List (String × β)
  | [] => []
  | p :: t => insertByKey p (sortByKey t)

/-- `ReportFilter._write_report_tsv` as the list of written lines: the
header line, then one line per record, references in sorted order,
contigs in sorted order within each reference, records in stored order. -/
def write_report_tsv (c : Collection) : List String :=
  headerLine ::
    (sortByKey c).flatMap (fun rm =>
      (sortByKey rm.2).flatMap (fun cl => cl.2.map dict_to_report_line))

/-! ### C5: a wrong-column-count line is fatal, but raises `NameError` -/

/-- C5 (counter-evidence): on a data line with the wrong column count,
`_load_report` does abort, but with `NameError`, not the module's
`Error`: line 83 interpolates `str(len(data))` into the `Error` message
and `data` is undefined in `_load_report`'s scope, so the intended
`Error` naming the offending line is never constructed. -/
theorem c5_bad_column_count_nameerror :
    load_report [headerLine, "gene1\tx"] = LoadResult.nameError := by decide

/-! ### C8: sentinel handling and fatal coercion failures -/

theorem report_line_to_dict_eq (line v1 v2 v3 v4 v5 v6 v7 v8 : String)
    (hsplit : pySplitTab line = [v1, v2, v3, v4, v5, v6, v7, v8]) :
    report_line_to_dict line =
      (match intCoerce v5 with
       | none => LineResult.assertFail
       | some rba =>
         match floatCoerce v4 with
         | none => LineResult.assertFail
         | some pc =>
           match parseIntStr v3 with
           | none => LineResult.valueError
           | some fn => LineResult.okRec ⟨v1, v2, ⟨fn⟩, pc, rba, v6, [v7, v8]⟩) := by
  unfold report_line_to_dict
  rw [hsplit]

/-- C8: when parsing a data line, an int or float column holding the
literal sentinel `"."` keeps the string `"."` (numeric coercion is
skipped), and a value in such a column that neither parses as its
numeric type nor equals `"."` makes the whole parse a fatal
`AssertionError`. -/
theorem c8_sentinel_and_coercion (line v1 v2 v3 v4 v5 v6 v7 v8 : String)
    (hsplit : pySplitTab line = [v1, v2, v3, v4, v5, v6, v7, v8]) :
    (v5 = "." → ∀ r, report_line_to_dict line = LineResult.okRec r →
        r.ref_base_assembled = NumField.dot) ∧
    (v4 = "." → ∀ r, report_line_to_dict line = LineResult.okRec r →
        r.pc_ident = NumField.dot) ∧
    (parseIntStr v5 = none → v5 ≠ "." →
        report_line_to_dict line = LineResult.assertFail) ∧
    (parsePyFloat v4 = none → v4 ≠ "." →
        report_line_to_dict line = LineResult.assertFail) := by
  rw [report_line_to_dict_eq line v1 v2 v3 v4 v5 v6 v7 v8 hsplit]
  refine ⟨?_, ?_, ?_, ?_⟩
  · intro h5 r hr
    subst h5
    rw [(by decide : intCoerce "." = some (NumField.dot : NumField Int))] at hr
    cases hf4 : floatCoerce v4 with
    | none => rw [hf4] at hr; cases hr
    | some pc =>
      rw [hf4] at hr
      cases h3 : parseIntStr v3 with
      | none => rw [h3] at hr; cases hr
      | some fn =>
        rw [h3] at hr
        injection hr with h
        rw [← h]
  · intro h4 r hr
    cases h5c : intCoerce v5 with
    | none => rw [h5c] at hr; cases hr
    | some rba =>
      rw [h5c] at hr
      subst h4
      rw [(by decide : floatCoerce "." = some (NumField.dot : NumField PyFloat))] at hr
      cases h3 : parseIntStr v3 with
      | none => rw [h3] at hr; cases hr
      | some fn =>
        rw [h3] at hr
        injection hr with h
        rw [← h]
  · intro hparse hneq
    have h5c : intCoerce v5 = none := by
      unfold intCoerce
      rw [hparse, if_neg hneq]
    rw [h5c]
  · intro hparse hneq
    have h4c : floatCoerce v4 = none := by
      unfold floatCoerce
      rw [hparse, if_neg hneq]
    cases h5c : intCoerce v5 with
    | none => rfl
    | some rba => rw [h4c]

def c8Line : String := "gene1\tctg1\t27\t.\t7\t1\tva\tvb"

theorem c8_sentinel_and_coercion_witness :
    (("7" : String) = "." → ∀ r, report_line_to_dict c8Line = LineResult.okRec r →
        r.ref_base_assembled = NumField.dot) ∧
    (("." : String) = "." → ∀ r, report_line_to_dict c8Line = LineResult.okRec r →
        r.pc_ident = NumField.dot) ∧
    (parseIntStr "7" = none → ("7" : String) ≠ "." →
        report_line_to_dict c8Line = LineResult.assertFail) ∧
    (parsePyFloat "." = none → ("." : String) ≠ "." →
        report_line_to_dict c8Line = LineResult.assertFail) :=
  c8_sentinel_and_coercion c8Line "gene1" "ctg1" "27" "." "7" "1" "va" "vb" (by decide)

/-! ### Decimal numeral lemmas -/

/-- The ten decimal digit characters. -/
def digitChars : List Char := ['0', '1', '2', '3', '4', '5', '6', '7', '8', '9']

theorem digitChars_facts {c : Char} (h : c ∈ digitChars) :
    c.isDigit = true ∧ c.isWhitespace = false ∧ c ≠ '\t' ∧ c ≠ '.' ∧
      c ≠ '-' ∧ c ≠ '+' := by
  fin_cases h <;> decide

theorem digitsVal_from (a : Nat) (cs : List Char) :
    cs.foldl (fun x c => 10 * x + (c.toNat - 48)) a
      = a * 10 ^ cs.length + digitsVal cs := by
  induction cs generalizing a with
  | nil => simp [digitsVal]
  | cons c t ih =>
    have h1 := ih (10 * a + (c.toNat - 48))
    have h2 := ih (10 * 0 + (c.toNat - 48))
    simp only [digitsVal, List.foldl_cons, List.length_cons] at *
    rw [h1, h2, pow_succ]
    ring

theorem digitsVal_append (xs ys : List Char) :
    digitsVal (xs ++ ys) = digitsVal xs * 10 ^ ys.length + digitsVal ys := by
  unfold digitsVal
  rw [List.foldl_append]
  exact digitsVal_from _ ys

theorem digitsVal_singleton (c : Char) : digitsVal [c] = c.toNat - 48 := by
  simp [digitsVal]

theorem digitChar_spec (r : Nat) (h : r < 10) :
    Char.ofNat (48 + r) ∈ digitChars ∧ digitsVal [Char.ofNat (48 + r)] = r := by
  interval_cases r <;> exact ⟨by decide, by decide⟩

theorem digitChar_ne_zero (r : Nat) (h : r < 10) (hr : r ≠ 0) :
    Char.ofNat (48 + r) ≠ '0' := by
  interval_cases r <;> simp_all

theorem natStrGo_spec : ∀ (fuel n : Nat), n < fuel →
    natStrGo fuel n ≠ [] ∧ (∀ c ∈ natStrGo fuel n, c ∈ digitChars) ∧
      digitsVal (natStrGo fuel n) = n
  | 0, n, h => absurd h (by omega)
  | fuel + 1, n, h => by
    simp only [natStrGo]
    by_cases h10 : n < 10
    · rw [if_pos h10]
      refine ⟨by simp, ?_, (digitChar_spec n h10).2⟩
      intro c hc
      rw [List.mem_singleton] at hc
      subst hc
      exact (digitChar_spec n h10).1
    · rw [if_neg h10]
      obtain ⟨hne, hdig, hval⟩ := natStrGo_spec fuel (n / 10) (by omega)
      have hr : n % 10 < 10 := Nat.mod_lt _ (by omega)
      refine ⟨by simp, ?_, ?_⟩
      · intro c hc
        rw [List.mem_append] at hc
        cases hc with
        | inl hc => exact hdig c hc
        | inr hc =>
          rw [List.mem_singleton] at hc
          subst hc
          exact (digitChar_spec _ hr).1
      · rw [digitsVal_append, hval, (digitChar_spec _ hr).2]
        simp only [List.length_singleton, pow_one]
        omega

theorem natStrChars_spec (n : Nat) :
    natStrChars n ≠ [] ∧ (∀ c ∈ natStrChars n, c ∈ digitChars) ∧
      digitsVal (natStrChars n) = n :=
  natStrGo_spec (n + 1) n (by omega)

theorem natStrGo_getLast : ∀ (fuel n : Nat), n < fuel →
    (natStrGo fuel n).getLast? = some (Char.ofNat (48 + n % 10))
  | 0, n, h => absurd h (by omega)
  | fuel + 1, n, h => by
    simp only [natStrGo]
    by_cases h10 : n < 10
    · rw [if_pos h10]
      simp [Nat.mod_eq_of_lt h10]
    · rw [if_neg h10]
      simp [List.getLast?_concat]

theorem natStrChars_getLast (n : Nat) :
    (natStrChars n).getLast? = some (Char.ofNat (48 + n % 10)) :=
  natStrGo_getLast (n + 1) n (by omega)

theorem parseDigits_natStrChars (n : Nat) : parseDigits (natStrChars n) = some n := by
  obtain ⟨hne, hdig, hval⟩ := natStrChars_spec n
  unfold parseDigits
  rw [if_neg, hval]
  simp only [Bool.or_eq_true, Bool.not_eq_true', not_or]
  constructor
  · simp [List.isEmpty_iff, hne]
  · simp only [Bool.not_eq_false]
    rw [List.all_eq_true]
    intro c hc
    exact (digitChars_facts (hdig c hc)).1

/-! ### `dropWhile` and `stripWs` lemmas -/

theorem dropWhile_eq_self_of {p : Char → Bool} :
    ∀ (cs : List Char), (∀ c ∈ cs, p c = false) → cs.dropWhile p = cs
  | [], _ => rfl
  | c :: t, h => by
    rw [List.dropWhile_cons, h c (List.mem_cons_self _ _)]
    simp

theorem stripWs_eq_self (cs : List Char)
    (h : ∀ c ∈ cs, c.isWhitespace = false) : stripWs cs = cs := by
  unfold stripWs
  rw [dropWhile_eq_self_of cs h, dropWhile_eq_self_of cs.reverse
    (fun c hc => h c (List.mem_reverse.mp hc)), List.reverse_reverse]

theorem takeWhile_append_stop {p : Char → Bool} (sep : Char) (B : List Char)
    (hsep : p sep = false) :
    ∀ (A : List Char), (∀ c ∈ A, p c = true) →
      (A ++ sep :: B).takeWhile p = A ∧ (A ++ sep :: B).dropWhile p = sep :: B
  | [], _ => by
    constructor
    · rw [List.nil_append, List.takeWhile_cons, hsep]; simp
    · rw [List.nil_append, List.dropWhile_cons, hsep]; simp
  | c :: t, h => by
    obtain ⟨ht, hd⟩ := takeWhile_append_stop sep B hsep t
      (fun x hx => h x (List.mem_cons_of_mem _ hx))
    constructor
    · rw [List.cons_append, List.takeWhile_cons, h c (List.mem_cons_self _ _)]
      simp [ht]
    · rw [List.cons_append, List.dropWhile_cons, h c (List.mem_cons_self _ _)]
      simp [hd]

theorem dropTrailingZeros_eq_self (cs : List Char) (c : Char)
    (hlast : cs.getLast? = some c) (hc : c ≠ '0') :
    dropTrailingZeros cs = cs := by
  unfold dropTrailingZeros
  have hrev : cs.reverse.head? = some c := by
    rw [List.head?_reverse, hlast]
  cases hr : cs.reverse with
  | nil => rw [hr] at hrev; cases hrev
  | cons x xs =>
    rw [hr] at hrev
    injection hrev with hx
    subst hx
    rw [List.dropWhile_cons]
    rw [if_neg (by simp [hc])]
    rw [← hr, List.reverse_reverse]

/-! ### Round trip of the numeric printers -/

theorem parseIntStr_pyIntStr (n : Int) : parseIntStr (pyIntStr n) = some n := by
  obtain ⟨hne, hdig, _⟩ := natStrChars_spec n.natAbs
  have hnws : ∀ c ∈ natStrChars n.natAbs, c.isWhitespace = false :=
    fun c hc => (digitChars_facts (hdig c hc)).2.1
  unfold pyIntStr parseIntStr
  by_cases hn : n < 0
  · rw [if_pos hn]
    have hstrip : stripWs ('-' :: natStrChars n.natAbs) = '-' :: natStrChars n.natAbs := by
      apply stripWs_eq_self
      intro c hc
      rw [List.mem_cons] at hc
      cases hc with
      | inl h => subst h; decide
      | inr h => exact hnws c h
    simp only [hstrip, parseSign, parseDigits_natStrChars, Option.map_some']
    congr 1
    rw [Int.ofNat_natAbs_of_nonpos (by omega)]
    ring
  · rw [if_neg hn]
    have hstrip : stripWs (natStrChars n.natAbs) = natStrChars n.natAbs :=
      stripWs_eq_self _ hnws
    simp only [hstrip]
    cases hds : natStrChars n.natAbs with
    | nil => exact absurd hds hne
    | cons c cs =>
      have hcd : c ∈ digitChars := hdig c (by rw [hds]; exact List.mem_cons_self _ _)
      have hsgn : parseSign (c :: cs) = (1, c :: cs) := by
        obtain ⟨_, _, _, _, hm, hp⟩ := digitChars_facts hcd
        unfold parseSign
        fin_cases hcd <;> rfl
      rw [hsgn]
      simp only [← hds, parseDigits_natStrChars, Option.map_some']
      congr 1
      rw [Int.natAbs_of_nonneg (by omega)]
      ring

theorem getLast?_append_right {α : Type} (l1 l2 : List α) (h : l2 ≠ []) :
    (l1 ++ l2).getLast? = l2.getLast? := by
  rw [List.getLast?_append]
  cases hl : l2.getLast? with
  | none => exact absurd (List.getLast?_eq_none_iff.mp hl) h
  | some c => rfl

theorem digitsVal_zero_pad : ∀ (z : Nat) (ds : List Char),
    digitsVal (List.replicate z '0' ++ ds) = digitsVal ds
  | 0, ds => by simp
  | z + 1, ds => by
    rw [List.replicate_succ, List.cons_append]
    show List.foldl _ ((fun a c => 10 * a + (c.toNat - 48)) 0 '0') _ = _
    have h0 : (fun (a : Nat) (c : Char) => 10 * a + (c.toNat - 48)) 0 '0' = 0 := by decide
    rw [h0]
    exact digitsVal_zero_pad z ds

/-- Decomposition of the printed float digits: an integer part, the
point, and a fractional part whose trailing-zero normalization
recovers the significand and exponent exactly. -/
theorem pyFloatCore_split (m k : Nat) (hc : k = 0 ∨ m % 10 ≠ 0) :
    ∃ A B, pyFloatCore m k = A ++ '.' :: B ∧ A ≠ [] ∧
      (∀ c ∈ A, c ∈ digitChars) ∧ (∀ c ∈ B, c ∈ digitChars) ∧
      digitsVal A * 10 ^ (dropTrailingZeros B).length
        + digitsVal (dropTrailingZeros B) = m ∧
      (dropTrailingZeros B).length = k := by
  obtain ⟨hne, hdig, hval⟩ := natStrChars_spec m
  unfold pyFloatCore
  by_cases hk : k = 0
  · subst hk
    rw [if_pos rfl]
    have hdz : dropTrailingZeros ['0'] = [] := by decide
    refine ⟨natStrChars m, ['0'], rfl, hne, hdig, ?_, ?_, ?_⟩
    · intro c hcx
      rw [List.mem_singleton] at hcx
      subst hcx
      decide
    · rw [hdz]
      simpa [digitsVal] using hval
    · rw [hdz]
      rfl
  · rw [if_neg hk]
    have hdsne : 0 < (natStrChars m).length := List.length_pos.mpr hne
    set ds := natStrChars m with hds
    set padded := List.replicate (k + 1 - ds.length) '0' ++ ds with hpadded
    have hplen : padded.length = (k + 1 - ds.length) + ds.length := by
      rw [hpadded]; simp
    have hplen2 : k + 1 ≤ padded.length := by omega
    have hpad_dig : ∀ c ∈ padded, c ∈ digitChars := by
      intro c hcx
      rw [hpadded, List.mem_append] at hcx
      cases hcx with
      | inl h => rw [List.mem_replicate] at h; rw [h.2]; decide
      | inr h => exact hdig c h
    have hpad_val : digitsVal padded = m := by
      rw [hpadded, digitsVal_zero_pad, hval]
    refine ⟨padded.take (padded.length - k), padded.drop (padded.length - k),
      rfl, ?_, ?_, ?_, ?_, ?_⟩
    · intro h0
      have := congrArg List.length h0
      rw [List.length_take] at this
      simp at this
      omega
    · intro c hcx
      exact hpad_dig c (List.take_subset _ _ hcx)
    · intro c hcx
      exact hpad_dig c (List.drop_subset _ _ hcx)
    · have hm10 : m % 10 ≠ 0 := hc.resolve_left hk
      have hBlen : (padded.drop (padded.length - k)).length = k := by
        rw [List.length_drop]; omega
      have hBne : padded.drop (padded.length - k) ≠ [] := by
        intro h0
        rw [h0] at hBlen
        simp at hBlen
        omega
      have hlastp : padded.getLast? = some (Char.ofNat (48 + m % 10)) := by
        rw [hpadded, getLast?_append_right _ _ hne, hds]
        exact natStrChars_getLast m
      have hlastB : (padded.drop (padded.length - k)).getLast? =
          some (Char.ofNat (48 + m % 10)) := by
        rw [← hlastp]
        conv_rhs => rw [← List.take_append_drop (padded.length - k) padded]
        rw [getLast?_append_right _ _ hBne]
      have hdtz : dropTrailingZeros (padded.drop (padded.length - k)) =
          padded.drop (padded.length - k) :=
        dropTrailingZeros_eq_self _ _ hlastB
          (digitChar_ne_zero _ (Nat.mod_lt _ (by omega)) hm10)
      rw [hdtz, ← digitsVal_append, List.take_append_drop]
      exact hpad_val
    · have hm10 : m % 10 ≠ 0 := hc.resolve_left hk
      have hBlen : (padded.drop (padded.length - k)).length = k := by
        rw [List.length_drop]; omega
      have hBne : padded.drop (padded.length - k) ≠ [] := by
        intro h0
        rw [h0] at hBlen
        simp at hBlen
        omega
      have hlastp : padded.getLast? = some (Char.ofNat (48 + m % 10)) := by
        rw [hpadded, getLast?_append_right _ _ hne, hds]
        exact natStrChars_getLast m
      have hlastB : (padded.drop (padded.length - k)).getLast? =
          some (Char.ofNat (48 + m % 10)) := by
        rw [← hlastp]
        conv_rhs => rw [← List.take_append_drop (padded.length - k) padded]
        rw [getLast?_append_right _ _ hBne]
      have hdtz : dropTrailingZeros (padded.drop (padded.length - k)) =
          padded.drop (padded.length - k) :=
        dropTrailingZeros_eq_self _ _ hlastB
          (digitChar_ne_zero _ (Nat.mod_lt _ (by omega)) hm10)
      rw [hdtz]
      exact hBlen

theorem parseSign_neg (r : List Char) : parseSign ('-' :: r) = (-1, r) := rfl

theorem parseSign_of_digit (c : Char) (hcd : c ∈ digitChars) (r : List Char) :
    parseSign (c :: r) = (1, c :: r) := by
  fin_cases hcd <;> rfl

theorem parseFloatBody_eq (sgn : Int) (A B : List Char) (hA : A ≠ [])
    (hAd : ∀ c ∈ A, c.isDigit = true) (hBd : ∀ c ∈ B, c.isDigit = true) :
    parseFloatBody sgn (A ++ '.' :: B) =
      some ⟨sgn * ((digitsVal A * 10 ^ (dropTrailingZeros B).length
        + digitsVal (dropTrailingZeros B) : Nat) : Int),
        (dropTrailingZeros B).length⟩ := by
  obtain ⟨ht, hd⟩ := takeWhile_append_stop '.' B (by decide) A hAd
  have h1 : A.isEmpty = false := by
    cases A with
    | nil => exact absurd rfl hA
    | cons _ _ => rfl
  have h2 : B.all (fun c => c.isDigit) = true := List.all_eq_true.mpr hBd
  simp only [parseFloatBody, ht, hd, h1, h2, Bool.false_and, Bool.not_true,
    Bool.or_false, Bool.false_eq_true, if_false]

/-- Printing a canonical float value and parsing the printed literal
recovers the value exactly. -/
theorem parsePyFloat_pyFloatStr (f : PyFloat)
    (hcanon : f.exp = 0 ∨ f.mant % 10 ≠ 0) :
    parsePyFloat (pyFloatStr f) = some f := by
  obtain ⟨mant, k⟩ := f
  have hc : k = 0 ∨ mant.natAbs % 10 ≠ 0 := by
    rcases hcanon with h | h
    · exact Or.inl h
    · refine Or.inr ?_
      have h' : mant % 10 ≠ 0 := h
      omega
  obtain ⟨A, B, hcore, hAne, hAd, hBd, hval, hlen⟩ := pyFloatCore_split mant.natAbs k hc
  have hAd' : ∀ c ∈ A, c.isDigit = true := fun c hc' => (digitChars_facts (hAd c hc')).1
  have hBd' : ∀ c ∈ B, c.isDigit = true := fun c hc' => (digitChars_facts (hBd c hc')).1
  have hnws : ∀ c ∈ pyFloatCore mant.natAbs k, c.isWhitespace = false := by
    intro c hc'
    rw [hcore, List.mem_append] at hc'
    cases hc' with
    | inl h => exact (digitChars_facts (hAd c h)).2.1
    | inr h =>
      rw [List.mem_cons] at h
      cases h with
      | inl h => subst h; decide
      | inr h => exact (digitChars_facts (hBd c h)).2.1
  simp only [parsePyFloat, pyFloatStr]
  by_cases hm : mant < 0
  · rw [if_pos hm]
    have hstrip : stripWs ('-' :: pyFloatCore mant.natAbs k)
        = '-' :: pyFloatCore mant.natAbs k := by
      apply stripWs_eq_self
      intro c hc'
      rw [List.mem_cons] at hc'
      cases hc' with
      | inl h => subst h; decide
      | inr h => exact hnws c h
    rw [show (⟨'-' :: pyFloatCore mant.natAbs k⟩ : String).data
        = '-' :: pyFloatCore mant.natAbs k from rfl]
    rw [hstrip, parseSign_neg, hcore,
      parseFloatBody_eq (-1) A B hAne hAd' hBd', hval, hlen]
    simp only [Option.some.injEq, PyFloat.mk.injEq]
    refine ⟨?_, trivial⟩
    rw [Int.ofNat_natAbs_of_nonpos (by omega)]
    ring
  · rw [if_neg hm]
    have hstrip : stripWs (pyFloatCore mant.natAbs k) = pyFloatCore mant.natAbs k :=
      stripWs_eq_self _ hnws
    rw [show (⟨pyFloatCore mant.natAbs k⟩ : String).data
        = pyFloatCore mant.natAbs k from rfl]
    rw [hstrip, hcore]
    obtain ⟨c0, A', hAeq⟩ : ∃ c0 A', A = c0 :: A' := by
      cases A with
      | nil => exact absurd rfl hAne
      | cons x xs => exact ⟨x, xs, rfl⟩
    have hc0 : c0 ∈ digitChars := hAd c0 (by rw [hAeq]; exact List.mem_cons_self _ _)
    rw [hAeq, List.cons_append, parseSign_of_digit c0 hc0, ← List.cons_append, ← hAeq]
    rw [parseFloatBody_eq 1 A B hAne hAd' hBd', hval, hlen]
    simp only [Option.some.injEq, PyFloat.mk.injEq]
    refine ⟨?_, trivial⟩
    rw [Int.natAbs_of_nonneg (by omega)]
    ring

/-! ### Tab split/join lemmas -/

theorem splitTabs_ne_nil : ∀ (cs : List Char), splitTabs cs ≠ []
  | [] => by simp [splitTabs]
  | c :: r => by
    simp only [splitTabs]
    cases h : splitTabs r with
    | nil => simp
    | cons h t =>
      by_cases hc : c = '\t' <;> simp [hc]

theorem splitTabs_no_tab : ∀ (cs : List Char), '\t' ∉ cs → splitTabs cs = [cs]
  | [], _ => rfl
  | c :: r, h => by
    have hc : c ≠ '\t' := fun hx => h (hx ▸ List.mem_cons_self _ _)
    have hr : '\t' ∉ r := fun hx => h (List.mem_cons_of_mem _ hx)
    simp only [splitTabs, splitTabs_no_tab r hr]
    rw [if_neg hc]

theorem splitTabs_append_tab : ∀ (v w : List Char), '\t' ∉ v →
    splitTabs (v ++ '\t' :: w) = v :: splitTabs w
  | [], w, _ => by
    simp only [List.nil_append, splitTabs]
    cases h : splitTabs w with
    | nil => exact absurd h (splitTabs_ne_nil w)
    | cons x t => simp
  | c :: v, w, h => by
    have hc : c ≠ '\t' := fun hx => h (hx ▸ List.mem_cons_self _ _)
    have hv : '\t' ∉ v := fun hx => h (List.mem_cons_of_mem _ hx)
    rw [List.cons_append]
    simp only [splitTabs]
    rw [splitTabs_append_tab v w hv]
    split
    · rename_i heq
      exact absurd heq (by simp)
    · rename_i hh tt heq
      injection heq with h1 h2
      subst h1
      subst h2
      rw [if_neg hc]

theorem splitTabs_joinTabs : ∀ (vss : List (List Char)), vss ≠ [] →
    (∀ v ∈ vss, '\t' ∉ v) → splitTabs (joinTabs vss) = vss
  | [], h, _ => absurd rfl h
  | [v], _, hcl => by
    simp only [joinTabs]
    exact splitTabs_no_tab v (hcl v (List.mem_singleton.mpr rfl))
  | v :: w :: t, _, hcl => by
    have hj : joinTabs (v :: w :: t) = v ++ '\t' :: joinTabs (w :: t) := rfl
    rw [hj, splitTabs_append_tab v _ (hcl v (List.mem_cons_self _ _)),
      splitTabs_joinTabs (w :: t) (by simp)
        (fun x hx => hcl x (List.mem_cons_of_mem _ hx))]

theorem getLast?_tab_chain (d rest : List Char) (h : rest ≠ []) :
    (d ++ '\t' :: rest).getLast? = rest.getLast? := by
  rw [show d ++ '\t' :: rest = d ++ (['\t'] ++ rest) from by simp,
    getLast?_append_right _ _ (by simp [h]), getLast?_append_right _ _ h]

theorem pyRstrip_eq_self (s : String) (c : Char)
    (h : s.data.getLast? = some c) (hc : c.isWhitespace = false) :
    pyRstrip s = s := by
  unfold pyRstrip
  have hrev : s.data.reverse.head? = some c := by
    rw [List.head?_reverse, h]
  cases hr : s.data.reverse with
  | nil => rw [hr] at hrev; cases hrev
  | cons x xs =>
    rw [hr] at hrev
    injection hrev with hx
    subst hx
    rw [List.dropWhile_cons]
    rw [if_neg (by simp [hc])]
    rw [← hr, List.reverse_reverse]

/-! ### Record string-cleanliness -/

/-- A field value that survives the file round trip untouched: it holds
no tab (the column separator) and no line break (the record separator). -/
def fieldClean (s : String) : Bool :=
  s.data.all (fun c => !(c == '\t' || c == '\n' || c == '\r'))

/-- The final column must not end in whitespace (and must be non-empty),
or `rstrip` would eat into it on reload. -/
def lastClean (s : String) : Bool :=
  match s.data.getLast? with
  | none => false
  | some c => !c.isWhitespace

/-- A float column value in canonical printed form: no redundant
trailing fractional zero (every loaded float value is canonical, since
parsing normalizes trailing zeros). -/
def canonicalB : NumField PyFloat → Bool
  | .dot => true
  | .num f => f.exp == 0 || decide (f.mant % 10 ≠ 0)

/-- The string well-formedness of a loaded record: every serialization
round trip preserves records with clean fields. -/
def recStringsOk (r : Rec) : Bool :=
  fieldClean r.ref_name && fieldClean r.ctg && fieldClean r.has_known_var &&
  (r.var_fields.length == numVarCols) && r.var_fields.all fieldClean &&
  lastClean (r.var_fields.getLastD "") && canonicalB r.pc_ident

theorem fieldClean_no_tab (s : String) (h : fieldClean s = true) : '\t' ∉ s.data := by
  intro hmem
  rw [fieldClean, List.all_eq_true] at h
  have := h '\t' hmem
  simp at this

/-! ### Tab-freeness of the printed numeric columns -/

theorem pyIntStr_chars (n : Int) :
    ∀ c ∈ (pyIntStr n).data, c ∈ digitChars ∨ c = '-' := by
  obtain ⟨_, hdig, _⟩ := natStrChars_spec n.natAbs
  intro c hc
  unfold pyIntStr at hc
  by_cases hn : n < 0
  · rw [if_pos hn] at hc
    rw [show (⟨'-' :: natStrChars n.natAbs⟩ : String).data
        = '-' :: natStrChars n.natAbs from rfl, List.mem_cons] at hc
    cases hc with
    | inl h => exact Or.inr h
    | inr h => exact Or.inl (hdig c h)
  · rw [if_neg hn] at hc
    exact Or.inl (hdig c hc)

theorem pyFloatCore_chars (m k : Nat) :
    ∀ c ∈ pyFloatCore m k, c ∈ digitChars ∨ c = '.' := by
  obtain ⟨_, hdig, _⟩ := natStrChars_spec m
  intro c hc
  unfold pyFloatCore at hc
  by_cases hk : k = 0
  · rw [if_pos hk] at hc
    rw [List.mem_append] at hc
    cases hc with
    | inl h => exact Or.inl (hdig c h)
    | inr h =>
      rw [List.mem_cons] at h
      rcases h with h | h
      · exact Or.inr h
      · rw [List.mem_singleton] at h
        subst h
        exact Or.inl (by decide)
  · rw [if_neg hk] at hc
    have hpad : ∀ x ∈ List.replicate (k + 1 - (natStrChars m).length) '0'
        ++ natStrChars m, x ∈ digitChars := by
      intro x hx
      rw [List.mem_append] at hx
      cases hx with
      | inl h => rw [List.mem_replicate] at h; rw [h.2]; decide
      | inr h => exact hdig x h
    rw [List.mem_append] at hc
    cases hc with
    | inl h => exact Or.inl (hpad c (List.take_subset _ _ h))
    | inr h =>
      rw [List.mem_cons] at h
      rcases h with h | h
      · exact Or.inr h
      · exact Or.inl (hpad c (List.drop_subset _ _ h))

theorem pyFloatStr_chars (f : PyFloat) :
    ∀ c ∈ (pyFloatStr f).data, c ∈ digitChars ∨ c = '.' ∨ c = '-' := by
  intro c hc
  unfold pyFloatStr at hc
  by_cases hm : f.mant < 0
  · rw [if_pos hm] at hc
    rw [show (⟨'-' :: pyFloatCore f.mant.natAbs f.exp⟩ : String).data
        = '-' :: pyFloatCore f.mant.natAbs f.exp from rfl, List.mem_cons] at hc
    cases hc with
    | inl h => exact Or.inr (Or.inr h)
    | inr h =>
      rcases pyFloatCore_chars _ _ c h with h | h
      · exact Or.inl h
      · exact Or.inr (Or.inl h)
  · rw [if_neg hm] at hc
    rcases pyFloatCore_chars _ _ c hc with h | h
    · exact Or.inl h
    · exact Or.inr (Or.inl h)

theorem pyIntStr_no_tab (n : Int) : '\t' ∉ (pyIntStr n).data := by
  intro h
  rcases pyIntStr_chars n '\t' h with h | h
  · exact absurd rfl (digitChars_facts h).2.2.1
  · cases h

theorem numFieldStr_int_no_tab (v : NumField Int) :
    '\t' ∉ (numFieldStr pyIntStr v).data := by
  cases v with
  | dot => decide
  | num n => exact pyIntStr_no_tab n

theorem numFieldStr_float_no_tab (v : NumField PyFloat) :
    '\t' ∉ (numFieldStr pyFloatStr v).data := by
  cases v with
  | dot => decide
  | num f =>
    intro h
    rcases pyFloatStr_chars f '\t' h with h | h | h
    · exact absurd rfl (digitChars_facts h).2.2.1
    · cases h
    · cases h

/-! ### Round trip of the numeric column coercions -/

theorem intCoerce_numFieldStr (v : NumField Int) :
    intCoerce (numFieldStr pyIntStr v) = some v := by
  cases v with
  | dot => decide
  | num n =>
    unfold intCoerce
    rw [show numFieldStr pyIntStr (NumField.num n) = pyIntStr n from rfl,
      parseIntStr_pyIntStr]

theorem floatCoerce_numFieldStr (v : NumField PyFloat)
    (hcanon : canonicalB v = true) :
    floatCoerce (numFieldStr pyFloatStr v) = some v := by
  cases v with
  | dot => decide
  | num f =>
    unfold floatCoerce
    have hc : f.exp = 0 ∨ f.mant % 10 ≠ 0 := by
      simp only [canonicalB, Bool.or_eq_true, beq_iff_eq, decide_eq_true_eq] at hcanon
      exact hcanon
    rw [show numFieldStr pyFloatStr (NumField.num f) = pyFloatStr f from rfl,
      parsePyFloat_pyFloatStr f hc]

theorem pySplitTab_pyJoinTab (vs : List String) (hne : vs ≠ [])
    (hcl : ∀ v ∈ vs, '\t' ∉ v.data) : pySplitTab (pyJoinTab vs) = vs := by
  unfold pySplitTab pyJoinTab
  rw [show (⟨joinTabs (vs.map String.data)⟩ : String).data
      = joinTabs (vs.map String.data) from rfl]
  rw [splitTabs_joinTabs (vs.map String.data) (by simp [hne])
    (by
      intro v hv
      obtain ⟨s, hs, rfl⟩ := List.mem_map.mp hv
      exact hcl s hs)]
  rw [List.map_map]
  have hid : ((fun cs => (⟨cs⟩ : String)) ∘ String.data) = id := by
    funext s
    rfl
  rw [hid, List.map_id]

/-- Round trip of one record through `_dict_to_report_line`, a file
line (with its `rstrip` on reload) and `_report_line_to_dict`. -/
theorem line_round_trip (r : Rec) (hwf : recStringsOk r = true) :
    report_line_to_dict (pyRstrip (dict_to_report_line r)) = LineResult.okRec r := by
  obtain ⟨rn, ct, fl, pc, rba, hkv, vfs⟩ := r
  obtain ⟨fn⟩ := fl
  simp only [recStringsOk, Bool.and_eq_true, beq_iff_eq] at hwf
  obtain ⟨⟨⟨⟨⟨⟨h1, h2⟩, h3⟩, hlen⟩, hallcl⟩, hlast⟩, hcanon⟩ := hwf
  obtain ⟨v7, v8, hv⟩ : ∃ v7 v8, vfs = [v7, v8] := by
    cases vfs with
    | nil => simp [numVarCols] at hlen
    | cons a t =>
      cases t with
      | nil => simp [numVarCols] at hlen
      | cons b t2 =>
        cases t2 with
        | nil => exact ⟨a, b, rfl⟩
        | cons x y => simp [numVarCols] at hlen
  subst hv
  have hcl7 : fieldClean v7 = true := by
    rw [List.all_eq_true] at hallcl
    exact hallcl v7 (List.mem_cons_self _ _)
  have hcl8 : fieldClean v8 = true := by
    rw [List.all_eq_true] at hallcl
    exact hallcl v8 (List.mem_cons_of_mem _ (List.mem_cons_self _ _))
  have hl8 : lastClean v8 = true := by simpa using hlast
  obtain ⟨c8, hc8, hc8w⟩ : ∃ c, v8.data.getLast? = some c ∧ c.isWhitespace = false := by
    unfold lastClean at hl8
    cases hcx : v8.data.getLast? with
    | none => rw [hcx] at hl8; cases hl8
    | some c =>
      rw [hcx] at hl8
      exact ⟨c, rfl, by simpa using hl8⟩
  have hv8ne : v8.data ≠ [] := by
    intro h0
    rw [h0] at hc8
    cases hc8
  have hline : dict_to_report_line ⟨rn, ct, ⟨fn⟩, pc, rba, hkv, [v7, v8]⟩
      = pyJoinTab [rn, ct, pyIntStr fn, numFieldStr pyFloatStr pc,
          numFieldStr pyIntStr rba, hkv, v7, v8] := rfl
  have hjoin : (pyJoinTab [rn, ct, pyIntStr fn, numFieldStr pyFloatStr pc,
      numFieldStr pyIntStr rba, hkv, v7, v8]).data
      = rn.data ++ '\t' :: (ct.data ++ '\t' :: ((pyIntStr fn).data ++ '\t' ::
        ((numFieldStr pyFloatStr pc).data ++ '\t' ::
          ((numFieldStr pyIntStr rba).data ++ '\t' ::
            (hkv.data ++ '\t' :: (v7.data ++ '\t' :: v8.data)))))) := rfl
  have hlastline : (pyJoinTab [rn, ct, pyIntStr fn, numFieldStr pyFloatStr pc,
      numFieldStr pyIntStr rba, hkv, v7, v8]).data.getLast? = some c8 := by
    rw [hjoin, getLast?_tab_chain _ _ (by simp), getLast?_tab_chain _ _ (by simp),
      getLast?_tab_chain _ _ (by simp), getLast?_tab_chain _ _ (by simp),
      getLast?_tab_chain _ _ (by simp), getLast?_tab_chain _ _ (by simp),
      getLast?_tab_chain _ _ hv8ne, hc8]
  have hrstrip : pyRstrip (pyJoinTab [rn, ct, pyIntStr fn, numFieldStr pyFloatStr pc,
      numFieldStr pyIntStr rba, hkv, v7, v8])
      = pyJoinTab [rn, ct, pyIntStr fn, numFieldStr pyFloatStr pc,
          numFieldStr pyIntStr rba, hkv, v7, v8] :=
    pyRstrip_eq_self _ c8 hlastline hc8w
  have hsplit : pySplitTab (pyJoinTab [rn, ct, pyIntStr fn, numFieldStr pyFloatStr pc,
      numFieldStr pyIntStr rba, hkv, v7, v8])
      = [rn, ct, pyIntStr fn, numFieldStr pyFloatStr pc,
          numFieldStr pyIntStr rba, hkv, v7, v8] := by
    apply pySplitTab_pyJoinTab _ (by simp)
    intro v hv
    simp only [List.mem_cons, List.not_mem_nil, or_false] at hv
    rcases hv with rfl | rfl | rfl | rfl | rfl | rfl | rfl | rfl
    · exact fieldClean_no_tab _ h1
    · exact fieldClean_no_tab _ h2
    · exact pyIntStr_no_tab fn
    · exact numFieldStr_float_no_tab pc
    · exact numFieldStr_int_no_tab rba
    · exact fieldClean_no_tab _ h3
    · exact fieldClean_no_tab _ hcl7
    · exact fieldClean_no_tab _ hcl8
  rw [hline, hrstrip, report_line_to_dict_eq _ _ _ _ _ _ _ _ _ hsplit,
    intCoerce_numFieldStr, floatCoerce_numFieldStr pc hcanon, parseIntStr_pyIntStr]

/-! ### Rebuilding the collection from written lines -/

theorem loadData_map (rs : List Rec) :
    ∀ (acc : Collection),
      (∀ r ∈ rs,
        report_line_to_dict (pyRstrip (dict_to_report_line r)) = LineResult.okRec r) →
      loadData acc (rs.map dict_to_report_line)
        = LoadResult.ok (rs.foldl insertRec acc) := by
  induction rs with
  | nil => intro acc _; rfl
  | cons r t ih =>
    intro acc h
    simp only [List.map_cons, loadData, h r (List.mem_cons_self _ _), List.foldl_cons]
    exact ih (insertRec acc r) (fun x hx => h x (List.mem_cons_of_mem _ hx))

theorem alookup_appendToGroup : ∀ (m : CtgMap) (ctg0 : String) (r : Rec) (ctg : String),
    alookup (appendToGroup m ctg0 r) ctg =
      if ctg0 = ctg then some ((alookup m ctg).getD [] ++ [r]) else alookup m ctg
  | [], ctg0, r, ctg => by
    by_cases h : ctg0 = ctg <;> simp [appendToGroup, alookup, h]
  | (k, l) :: t, ctg0, r, ctg => by
    have ih := alookup_appendToGroup t ctg0 r ctg
    by_cases hk : k = ctg0
    · subst hk
      by_cases hq : k = ctg
      · subst hq
        simp [appendToGroup, alookup]
      · simp [appendToGroup, alookup, hq]
    · by_cases hq : k = ctg
      · subst hq
        have hne : ctg0 ≠ k := fun h0 => hk h0.symm
        simp [appendToGroup, alookup, hk, hne]
      · simp [appendToGroup, alookup, hk, hq, ih]

theorem collLookup_insertRec : ∀ (c : Collection) (r : Rec) (ref ctg : String),
    collLookup (insertRec c r) ref ctg =
      if r.ref_name = ref ∧ r.ctg = ctg
      then some ((collLookup c ref ctg).getD [] ++ [r])
      else collLookup c ref ctg
  | [], r, ref, ctg => by
    by_cases h1 : r.ref_name = ref <;> by_cases h2 : r.ctg = ctg <;>
      simp [insertRec, collLookup, alookup, h1, h2]
  | (k, m) :: t, r, ref, ctg => by
    have ih := collLookup_insertRec t r ref ctg
    by_cases hk : k = r.ref_name
    · by_cases h1 : k = ref
      · have he : r.ref_name = ref := hk.symm.trans h1
        simp only [insertRec, if_pos hk, collLookup, alookup, if_pos h1,
          Option.some_bind, alookup_appendToGroup]
        by_cases h2 : r.ctg = ctg
        · simp [h2, he]
        · have hcond : ¬(r.ref_name = ref ∧ r.ctg = ctg) := fun h0 => h2 h0.2
          simp [h2, hcond]
      · have hcond : ¬(r.ref_name = ref ∧ r.ctg = ctg) :=
          fun h0 => h1 (hk.trans h0.1)
        have hne : ¬(r.ref_name = ref) := fun h0 => h1 (hk.trans h0)
        simp [insertRec, hk, collLookup, alookup, h1, hcond, hne]
    · by_cases h1 : k = ref
      · have hcond : ¬(r.ref_name = ref ∧ r.ctg = ctg) :=
          fun h0 => hk (h1.trans h0.1.symm)
        have hne : ¬(ref = r.ref_name) := fun h0 => hk (h1.trans h0)
        simp [insertRec, hk, collLookup, alookup, h1, hcond, hne]
      · simp only [insertRec, if_neg hk, collLookup, alookup, if_neg h1]
        rw [collLookup] at ih
        exact ih

/-- The records of `rs` that the loader files under `(ref, ctg)`. -/
def keyRecs (rs : List Rec) (ref ctg : String) : List Rec :=
  rs.filter (fun r => r.ref_name == ref && r.ctg == ctg)

theorem collLookup_foldl_insertRec : ∀ (rs : List Rec) (c : Collection) (ref ctg : String),
    collLookup (rs.foldl insertRec c) ref ctg =
      if keyRecs rs ref ctg = [] then collLookup c ref ctg
      else some ((collLookup c ref ctg).getD [] ++ keyRecs rs ref ctg)
  | [], c, ref, ctg => by simp [keyRecs]
  | r :: t, c, ref, ctg => by
    have ih := collLookup_foldl_insertRec t (insertRec c r) ref ctg
    have hci := collLookup_insertRec c r ref ctg
    by_cases hmatch : r.ref_name = ref ∧ r.ctg = ctg
    · have hb : (r.ref_name == ref && r.ctg == ctg) = true := by
        simp [hmatch.1, hmatch.2]
      have hkr : keyRecs (r :: t) ref ctg = r :: keyRecs t ref ctg := by
        simp [keyRecs, List.filter_cons, hb]
      rw [if_pos hmatch] at hci
      rw [List.foldl_cons, ih, hkr, hci]
      by_cases ht : keyRecs t ref ctg = []
      · simp [ht]
      · simp [ht]
    · have hb : ¬((r.ref_name == ref && r.ctg == ctg) = true) := by
        simp only [Bool.and_eq_true, beq_iff_eq]
        exact hmatch
      have hkr : keyRecs (r :: t) ref ctg = keyRecs t ref ctg := by
        simp [keyRecs, List.filter_cons, hb]
      rw [if_neg hmatch] at hci
      rw [List.foldl_cons, ih, hkr, hci]

/-! ### Sorting is a permutation; the written records -/

theorem insertByKey_perm {β : Type} (p : String × β) :
    ∀ (l : List (String × β)), (insertByKey p l).Perm (p :: l)
  | [] => List.Perm.refl _
  | q :: t => by
    simp only [insertByKey]
    by_cases h : p.1 < q.1
    · rw [if_pos h]
    · rw [if_neg h]
      exact ((insertByKey_perm p t).cons q).trans (List.Perm.swap p q t)

theorem sortByKey_perm {β : Type} : ∀ (l : List (String × β)), (sortByKey l).Perm l
  | [] => List.Perm.refl _
  | p :: t => (insertByKey_perm p (sortByKey t)).trans ((sortByKey_perm t).cons p)

theorem perm_flatMap {α β : Type} (f : α → List β) {l1 l2 : List α} (h : l1.Perm l2) :
    (l1.flatMap f).Perm (l2.flatMap f) := by
  induction h with
  | nil => exact List.Perm.refl _
  | cons x _ ih =>
    simp only [List.flatMap_cons]
    exact ih.append_left (f x)
  | swap x y l =>
    simp only [List.flatMap_cons]
    rw [← List.append_assoc, ← List.append_assoc]
    exact List.Perm.append_right _ List.perm_append_comm
  | trans _ _ ih1 ih2 => exact ih1.trans ih2

theorem flatMap_congr_perm {α β : Type} (f g : α → List β) :
    ∀ (l : List α), (∀ x ∈ l, (f x).Perm (g x)) → (l.flatMap f).Perm (l.flatMap g)
  | [], _ => List.Perm.refl _
  | x :: t, h => by
    simp only [List.flatMap_cons]
    exact (h x (List.mem_cons_self _ _)).append
      (flatMap_congr_perm f g t (fun y hy => h y (List.mem_cons_of_mem _ hy)))

/-- The groups of a collection as a flat list keyed by the
(reference, contig) pair, in stored order. -/
def flatGroups (c : Collection) : List ((String × String) × List Rec) :=
  c.flatMap (fun rm => rm.2.map (fun cl => ((rm.1, cl.1), cl.2)))

/-- The same flat list in the writer's order (references sorted, contigs
sorted within each reference). -/
def sortedFlat (c : Collection) : List ((String × String) × List Rec) :=
  (sortByKey c).flatMap (fun rm => (sortByKey rm.2).map (fun cl => ((rm.1, cl.1), cl.2)))

/-- The records in the order the writer emits them. -/
def recsOf (c : Collection) : List Rec := (sortedFlat c).flatMap (fun g => g.2)

theorem sortedFlat_perm (c : Collection) : (sortedFlat c).Perm (flatGroups c) := by
  unfold sortedFlat flatGroups
  refine (perm_flatMap _ (sortByKey_perm c)).trans ?_
  exact flatMap_congr_perm _ _ c (fun rm _ => (sortByKey_perm rm.2).map _)

theorem write_report_tsv_eq (c : Collection) :
    write_report_tsv c = headerLine :: (recsOf c).map dict_to_report_line := by
  unfold write_report_tsv recsOf sortedFlat
  congr 1
  rw [List.flatMap_assoc]
  simp only [List.flatMap_map, List.map_flatMap]

/-! ### Well-formedness of a loaded collection and its preservation -/

/-- The invariants a loaded collection enjoys: dict keys are unique at
both levels, every record is filed under its own reference and contig
names, and every record's string fields are clean (no separators, no
trailing whitespace in the final column, canonical float form). -/
def collOk (c : Collection) : Prop :=
  (c.map Prod.fst).Nodup ∧
  ∀ rm ∈ c, (rm.2.map Prod.fst).Nodup ∧
    ∀ cl ∈ rm.2, ∀ r ∈ cl.2,
      r.ref_name = rm.1 ∧ r.ctg = cl.1 ∧ recStringsOk r = true

theorem var_fields_pair (vfs : List String) (hlen : vfs.length = numVarCols) :
    ∃ v7 v8, vfs = [v7, v8] := by
  cases vfs with
  | nil => simp [numVarCols] at hlen
  | cons a t =>
    cases t with
    | nil => simp [numVarCols] at hlen
    | cons b t2 =>
      cases t2 with
      | nil => exact ⟨a, b, rfl⟩
      | cons x y => simp [numVarCols] at hlen

theorem recStringsOk_demoteRec (r : Rec) (h : recStringsOk r = true) :
    recStringsOk (demoteRec r) = true := by
  obtain ⟨rn, ct, fl, pc, rba, hkv, vfs⟩ := r
  simp only [recStringsOk, Bool.and_eq_true, beq_iff_eq] at h
  obtain ⟨⟨⟨⟨⟨⟨h1, h2⟩, h3⟩, hlen⟩, _⟩, _⟩, hcanon⟩ := h
  obtain ⟨v7, v8, hv⟩ := var_fields_pair vfs hlen
  subst hv
  show recStringsOk ⟨rn, ct, fl, pc, rba, hkv, [".", "."]⟩ = true
  simp only [recStringsOk, Bool.and_eq_true, beq_iff_eq]
  exact ⟨⟨⟨⟨⟨⟨h1, h2⟩, h3⟩, by decide⟩, by decide⟩, by decide⟩, hcanon⟩

theorem keys_filterMap_sublist {β γ : Type} (F : String × β → Option (String × γ))
    (hkey : ∀ p q, F p = some q → q.1 = p.1) :
    ∀ (l : List (String × β)), ((l.filterMap F).map Prod.fst).Sublist (l.map Prod.fst)
  | [] => by simp
  | p :: t => by
    simp only [List.filterMap_cons]
    cases hF : F p with
    | none =>
      simp only [List.map_cons]
      exact (keys_filterMap_sublist F hkey t).cons _
    | some q =>
      simp only [List.map_cons]
      rw [hkey p q hF]
      exact (keys_filterMap_sublist F hkey t).cons₂ _

theorem filtered_nodup (cfg : Config) (c c1 : Collection)
    (hnd : (c.map Prod.fst).Nodup) (hc1 : filterGroupsRef cfg c = some c1) :
    ((c1.filterMap pruneRef).map Prod.fst).Nodup := by
  have h1 : (c1.map Prod.fst).Nodup := by
    rw [keys_eq_of_forall2 (S := fun a b => filterGroupsCtg cfg a = some b) c c1
      (filterGroupsRef_forall2 cfg c c1 hc1)]
    exact hnd
  exact List.Nodup.sublist (keys_filterMap_sublist pruneRef pruneRef_key c1) h1

theorem filtered_inner_nodup (cfg : Config) (c c1 : Collection)
    (hok : collOk c) (hc1 : filterGroupsRef cfg c = some c1) :
    ∀ rm' ∈ c1.filterMap pruneRef, (rm'.2.map Prod.fst).Nodup := by
  intro rm' hrm'
  obtain ⟨rm1, hrm1, hF⟩ := List.mem_filterMap.mp hrm'
  obtain ⟨hkey, hval, _⟩ := pruneRef_some rm1 rm' hF
  obtain ⟨rm0, hrm0, hR⟩ := mem_of_forall2 c c1
    (filterGroupsRef_forall2 cfg c c1 hc1) rm1 hrm1
  have hnd1 : (rm1.2.map Prod.fst).Nodup := by
    rw [keys_eq_of_forall2 (S := fun a b => filter_list_of_dicts cfg a = some b)
      rm0.2 rm1.2 (filterGroupsCtg_forall2 cfg rm0.2 rm1.2 hR.2)]
    exact (hok.2 rm0 hrm0).1
  rw [hval]
  exact List.Nodup.sublist (List.Sublist.map Prod.fst (List.filter_sublist _)) hnd1

theorem filtered_groups_ok (cfg : Config) (c c1 : Collection)
    (hok : collOk c) (hc1 : filterGroupsRef cfg c = some c1) :
    ∀ rm' ∈ c1.filterMap pruneRef, ∀ cl ∈ rm'.2,
      cl.2 ≠ [] ∧ ∀ r' ∈ cl.2,
        r'.ref_name = rm'.1 ∧ r'.ctg = cl.1 ∧ recStringsOk r' = true := by
  intro rm' hrm' cl hcl
  obtain ⟨rm1, hrm1, hF⟩ := List.mem_filterMap.mp hrm'
  obtain ⟨hkey, hval, _⟩ := pruneRef_some rm1 rm' hF
  rw [hval] at hcl
  have hclm := List.mem_filter.mp hcl
  obtain ⟨rm0, hrm0, hR⟩ := mem_of_forall2 c c1
    (filterGroupsRef_forall2 cfg c c1 hc1) rm1 hrm1
  obtain ⟨cl0, hcl0, hR2⟩ := mem_of_forall2 rm0.2 rm1.2
    (filterGroupsCtg_forall2 cfg rm0.2 rm1.2 hR.2) cl hclm.1
  constructor
  · intro h0
    have := hclm.2
    rw [h0] at this
    simp at this
  · intro r' hr'
    obtain ⟨r, hrmem, hor⟩ := filter_list_mem_origin cfg cl0.2 cl.2 hR2.2 r' hr'
    have hfields := (hok.2 rm0 hrm0).2 cl0 hcl0 r hrmem
    have hkc : cl.1 = cl0.1 := hR2.1
    have hkr : rm'.1 = rm0.1 := hkey.trans hR.1
    cases hor with
    | inl he =>
      subst he
      exact ⟨hfields.1.trans hkr.symm, hfields.2.1.trans hkc.symm, hfields.2.2⟩
    | inr he =>
      subst he
      refine ⟨?_, ?_, recStringsOk_demoteRec r hfields.2.2⟩
      · rw [show (demoteRec r).ref_name = r.ref_name from rfl, hfields.1, hkr]
      · rw [show (demoteRec r).ctg = r.ctg from rfl, hfields.2.1, hkc]

/-! ### Keys of the flattened groups -/

theorem flatGroups_key_fst (c : Collection) (p : String × String)
    (h : p ∈ (flatGroups c).map Prod.fst) : p.1 ∈ c.map Prod.fst := by
  obtain ⟨g, hg, hgp⟩ := List.mem_map.mp h
  unfold flatGroups at hg
  obtain ⟨rm, hrm, hmap⟩ := List.mem_flatMap.mp hg
  obtain ⟨cl, _, heq⟩ := List.mem_map.mp hmap
  subst heq
  rw [← hgp]
  exact List.mem_map.mpr ⟨rm, hrm, rfl⟩

theorem flatGroups_keys_nodup : ∀ (c : Collection), (c.map Prod.fst).Nodup →
    (∀ rm ∈ c, (rm.2.map Prod.fst).Nodup) → ((flatGroups c).map Prod.fst).Nodup
  | [], _, _ => by simp [flatGroups]
  | rm :: t, hndo, hndi => by
    simp only [List.map_cons, List.nodup_cons] at hndo
    have ih := flatGroups_keys_nodup t hndo.2
      (fun x hx => hndi x (List.mem_cons_of_mem _ hx))
    have hinner := hndi rm (List.mem_cons_self _ _)
    rw [show flatGroups (rm :: t)
        = rm.2.map (fun cl => ((rm.1, cl.1), cl.2)) ++ flatGroups t from rfl]
    rw [List.map_append, List.nodup_append]
    refine ⟨?_, ih, ?_⟩
    · rw [List.map_map]
      have hfeq : (Prod.fst ∘ (fun cl : String × List Rec => ((rm.1, cl.1), cl.2)))
          = (fun k => (rm.1, k)) ∘ Prod.fst := rfl
      rw [hfeq, ← List.map_map]
      refine List.Nodup.map ?_ hinner
      intro a b hab
      simpa using hab
    · intro a ha hb
      have ha1 : a.1 = rm.1 := by
        rw [List.map_map] at ha
        obtain ⟨cl, _, heq⟩ := List.mem_map.mp ha
        rw [← heq]
        rfl
      have hb1 : a.1 ∈ t.map Prod.fst := flatGroups_key_fst t a hb
      rw [ha1] at hb1
      exact hndo.1 hb1

theorem alookup_of_mem_nodup {β : Type} :
    ∀ (l : List (String × β)) (k : String) (v : β),
      (k, v) ∈ l → (l.map Prod.fst).Nodup → alookup l k = some v
  | [], _, _, h, _ => by cases h
  | (k0, v0) :: t, k, v, h, hnd => by
    simp only [List.map_cons, List.nodup_cons] at hnd
    rw [List.mem_cons] at h
    cases h with
    | inl h =>
      injection h with h1 h2
      subst h1
      subst h2
      simp [alookup]
    | inr h =>
      have hk : k0 ≠ k := by
        intro h0
        subst h0
        exact hnd.1 (List.mem_map.mpr ⟨(k0, v), h, rfl⟩)
      simp only [alookup, if_neg hk]
      exact alookup_of_mem_nodup t k v h hnd.2

theorem collLookup_mem_flatGroups (c : Collection) (ref ctg : String) (l : List Rec)
    (h : collLookup c ref ctg = some l) : ((ref, ctg), l) ∈ flatGroups c := by
  unfold collLookup at h
  cases hm : alookup c ref with
  | none => rw [hm] at h; cases h
  | some m =>
    rw [hm, Option.some_bind] at h
    have h1 := alookup_mem c ref m hm
    have h2 := alookup_mem m ctg l h
    unfold flatGroups
    exact List.mem_flatMap.mpr ⟨(ref, m), h1,
      List.mem_map.mpr ⟨(ctg, l), h2, rfl⟩⟩

theorem mem_flatGroups_collLookup (c : Collection)
    (hndo : (c.map Prod.fst).Nodup) (hndi : ∀ rm ∈ c, (rm.2.map Prod.fst).Nodup)
    (ref ctg : String) (l : List Rec)
    (h : ((ref, ctg), l) ∈ flatGroups c) : collLookup c ref ctg = some l := by
  unfold flatGroups at h
  obtain ⟨rm, hrm, hmap⟩ := List.mem_flatMap.mp h
  obtain ⟨cl, hcl, heq⟩ := List.mem_map.mp hmap
  injection heq with hkey hval
  injection hkey with hk1 hk2
  rw [← hk1, ← hk2, ← hval]
  unfold collLookup
  rw [alookup_of_mem_nodup c rm.1 rm.2 (by rw [Prod.mk.eta]; exact hrm) hndo,
    Option.some_bind]
  exact alookup_of_mem_nodup rm.2 cl.1 cl.2 (by rw [Prod.mk.eta]; exact hcl)
    (hndi rm hrm)

theorem keyRecs_flatMap (ref ctg : String) :
    ∀ (gs : List ((String × String) × List Rec)),
      (∀ g ∈ gs, ∀ r ∈ g.2, r.ref_name = g.1.1 ∧ r.ctg = g.1.2) →
      keyRecs (gs.flatMap (fun g => g.2)) ref ctg
        = gs.flatMap (fun g => if g.1 = (ref, ctg) then g.2 else [])
  | [], _ => rfl
  | g :: t, hag => by
    have hg := hag g (List.mem_cons_self _ _)
    have ih := keyRecs_flatMap ref ctg t (fun x hx => hag x (List.mem_cons_of_mem _ hx))
    simp only [List.flatMap_cons, keyRecs, List.filter_append]
    have hhead : g.2.filter (fun r => r.ref_name == ref && r.ctg == ctg)
        = (if g.1 = (ref, ctg) then g.2 else []) := by
      by_cases hk : g.1 = (ref, ctg)
      · rw [if_pos hk]
        apply List.filter_eq_self.mpr
        intro r hr
        have hfr := hg r hr
        have h1 : g.1.1 = ref := by rw [hk]
        have h2 : g.1.2 = ctg := by rw [hk]
        simp [hfr.1.trans h1, hfr.2.trans h2]
      · rw [if_neg hk]
        apply List.filter_eq_nil_iff.mpr
        intro r hr
        intro hp
        simp only [Bool.and_eq_true, beq_iff_eq] at hp
        have hfr := hg r hr
        exact hk (Prod.ext (hfr.1.symm.trans hp.1) (hfr.2.symm.trans hp.2))
    rw [hhead,
      show (t.flatMap (fun g => g.2)).filter (fun r => r.ref_name == ref && r.ctg == ctg)
        = keyRecs (t.flatMap (fun g => g.2)) ref ctg from rfl, ih]

theorem flatMap_if_key : ∀ (gs : List ((String × String) × List Rec))
    (key : String × String), ((gs.map Prod.fst).Nodup) →
    ∀ (l : List Rec), (key, l) ∈ gs →
      gs.flatMap (fun g => if g.1 = key then g.2 else []) = l
  | [], _, _, _, h => by cases h
  | g :: t, key, hnd, l, hmem => by
    simp only [List.map_cons, List.nodup_cons] at hnd
    simp only [List.flatMap_cons]
    rw [List.mem_cons] at hmem
    cases hmem with
    | inl h =>
      have hrest : t.flatMap (fun g' => if g'.1 = key then g'.2 else []) = [] := by
        apply List.flatMap_eq_nil_iff.mpr
        intro x hx
        rw [if_neg]
        intro hxk
        apply hnd.1
        rw [← h]
        exact hxk ▸ List.mem_map.mpr ⟨x, hx, rfl⟩
      rw [← h]
      simp [hrest]
    | inr h =>
      have hkne : g.1 ≠ key := by
        intro h0
        exact hnd.1 (h0 ▸ List.mem_map.mpr ⟨(key, l), h, rfl⟩)
      rw [if_neg hkne, List.nil_append]
      exact flatMap_if_key t key hnd.2 l h

theorem flatMap_if_key_nil (gs : List ((String × String) × List Rec))
    (key : String × String) (hnone : ∀ g ∈ gs, g.1 ≠ key) :
    gs.flatMap (fun g => if g.1 = key then g.2 else []) = [] := by
  apply List.flatMap_eq_nil_iff.mpr
  intro g hg
  rw [if_neg (hnone g hg)]

/-! ### C7: the TSV round trip -/

/-- C7: writing a filtered collection with `_write_report_tsv` and
loading the written lines back with `_load_report` succeeds and yields a
collection with exactly the same records in every group.  `collOk` is
the well-formedness every loaded collection has: unique dict keys,
records filed under their own reference/contig names, and clean string
fields. -/
theorem c7_tsv_round_trip (cfg : Config) (c c' : Collection)
    (hok : collOk c) (hf : filter_dicts cfg c = some c') :
    ∃ c'', load_report (write_report_tsv c') = LoadResult.ok c'' ∧
      ∀ ref ctg, collLookup c'' ref ctg = collLookup c' ref ctg := by
  obtain ⟨c1, hc1, rfl⟩ := filter_dicts_parts cfg c c' hf
  have hnd' := filtered_nodup cfg c c1 hok.1 hc1
  have hndi' := filtered_inner_nodup cfg c c1 hok hc1
  have hgok := filtered_groups_ok cfg c c1 hok hc1
  have hagF : ∀ g ∈ flatGroups (c1.filterMap pruneRef), ∀ r ∈ g.2,
      r.ref_name = g.1.1 ∧ r.ctg = g.1.2 ∧ recStringsOk r = true := by
    intro g hg r hr
    unfold flatGroups at hg
    obtain ⟨rm, hrm, hmap⟩ := List.mem_flatMap.mp hg
    obtain ⟨cl, hcl, heq⟩ := List.mem_map.mp hmap
    subst heq
    exact (hgok rm hrm cl hcl).2 r hr
  have hneF : ∀ g ∈ flatGroups (c1.filterMap pruneRef), g.2 ≠ ([] : List Rec) := by
    intro g hg
    unfold flatGroups at hg
    obtain ⟨rm, hrm, hmap⟩ := List.mem_flatMap.mp hg
    obtain ⟨cl, hcl, heq⟩ := List.mem_map.mp hmap
    subst heq
    exact (hgok rm hrm cl hcl).1
  have hndF : ((flatGroups (c1.filterMap pruneRef)).map Prod.fst).Nodup :=
    flatGroups_keys_nodup _ hnd' hndi'
  have hperm := sortedFlat_perm (c1.filterMap pruneRef)
  have hndS : ((sortedFlat (c1.filterMap pruneRef)).map Prod.fst).Nodup :=
    ((hperm.map Prod.fst).nodup_iff).mpr hndF
  have hwfrecs : ∀ r ∈ recsOf (c1.filterMap pruneRef),
      report_line_to_dict (pyRstrip (dict_to_report_line r)) = LineResult.okRec r := by
    intro r hr
    unfold recsOf at hr
    obtain ⟨g, hg, hrg⟩ := List.mem_flatMap.mp hr
    exact line_round_trip r (hagF g (hperm.mem_iff.mp hg) r hrg).2.2
  rw [write_report_tsv_eq]
  simp only [load_report]
  rw [if_pos (by decide), loadData_map _ [] hwfrecs]
  refine ⟨(recsOf (c1.filterMap pruneRef)).foldl insertRec [], rfl, ?_⟩
  intro ref ctg
  rw [collLookup_foldl_insertRec]
  have hkey : keyRecs (recsOf (c1.filterMap pruneRef)) ref ctg
      = (sortedFlat (c1.filterMap pruneRef)).flatMap
          (fun g => if g.1 = (ref, ctg) then g.2 else []) := by
    unfold recsOf
    exact keyRecs_flatMap ref ctg (sortedFlat (c1.filterMap pruneRef))
      (fun g hg r hr =>
        ⟨(hagF g (hperm.mem_iff.mp hg) r hr).1, (hagF g (hperm.mem_iff.mp hg) r hr).2.1⟩)
  cases hlk : collLookup (c1.filterMap pruneRef) ref ctg with
  | some l =>
    have hmemF := collLookup_mem_flatGroups _ ref ctg l hlk
    have hmemS : ((ref, ctg), l) ∈ sortedFlat (c1.filterMap pruneRef) :=
      hperm.mem_iff.mpr hmemF
    have hkr : keyRecs (recsOf (c1.filterMap pruneRef)) ref ctg = l := by
      rw [hkey]
      exact flatMap_if_key _ (ref, ctg) hndS l hmemS
    have hlne : l ≠ [] := hneF ((ref, ctg), l) hmemF
    rw [hkr, if_neg hlne]
    simp [collLookup, alookup]
  | none =>
    have hnone : ∀ g ∈ sortedFlat (c1.filterMap pruneRef), g.1 ≠ (ref, ctg) := by
      intro g hg h0
      have hgF := hperm.mem_iff.mp hg
      have hmem : ((ref, ctg), g.2) ∈ flatGroups (c1.filterMap pruneRef) := by
        have hge : ((ref, ctg), g.2) = g := by
          rw [← h0]
        rw [hge]
        exact hgF
      have := mem_flatGroups_collLookup _ hnd' hndi' ref ctg g.2 hmem
      rw [hlk] at this
      cases this
    have hkr : keyRecs (recsOf (c1.filterMap pruneRef)) ref ctg = [] := by
      rw [hkey]
      exact flatMap_if_key_nil _ _ hnone
    rw [hkr, if_pos rfl]
    simp [collLookup, alookup]

/-- A failing record filed under `("ref1", "ctg1")`. -/
def w7A : Rec := ⟨"ref1", "ctg1", ⟨1⟩, .num ⟨99, 0⟩, .num 10, "1", ["x1", "x2"]⟩

/-- An essential-only record filed under `("ref1", "ctg1")`; it gets demoted. -/
def w7B : Rec := ⟨"ref1", "ctg1", ⟨0⟩, .num ⟨95, 0⟩, .num 10, "0", ["w1", "w2"]⟩

/-- A fully passing record filed under `("ref1", "ctg2")`. -/
def w7C : Rec := ⟨"ref1", "ctg2", ⟨0⟩, .num ⟨9542, 2⟩, .num 10, "1", ["v1", "v2"]⟩

/-- A failing record filed under `("ref2", "ctgA")`; its whole reference
is pruned. -/
def w7D : Rec := ⟨"ref2", "ctgA", ⟨1⟩, .num ⟨99, 0⟩, .num 10, "1", ["x1", "x2"]⟩

/-- A well-formed collection exercising demotion, group pruning and
reference pruning in the round trip. -/
def wColl7 : Collection :=
  [("ref1", [("ctg1", [w7A, w7B]), ("ctg2", [w7C])]),
   ("ref2", [("ctgA", [w7D])])]

def wColl7Out : Collection := (filter_dicts defaultConfig wColl7).getD []

theorem c7_tsv_round_trip_witness :
    ∃ c'', load_report (write_report_tsv wColl7Out) = LoadResult.ok c'' ∧
      ∀ ref ctg, collLookup c'' ref ctg = collLookup wColl7Out ref ctg :=
  c7_tsv_round_trip defaultConfig wColl7 wColl7Out ⟨by decide, by decide⟩ (by decide)

end ReportFilter
